import Mathlib

/-!
# Control-flow graph core: `cfg/CFG.cc`

A shallow embedding of the construction primitives (`CFG::CFG`, `CFG::freshBlock`),
of the reads / writes / dead dataflow pass (`CFG::findAllReadsAndWrites`), of the
structural validator (`CFG::sanityCheck`) and of the graph-description export
(`CFG::toString`, `CFG::showRaw`), followed by theorems about them.

Conventions of the embedding.

* `std::vector<bool>` is `List Bool`, `std::vector<std::vector<bool>>` is a list of
  rows.  Every indexed access of the source is a bounds-checked access here: the
  pass runs in `Option` and yields `none` as soon as an index is out of range.
* A `BasicBlock *` is the position of the block in `CFG::basicBlocks` (the blocks
  are individually heap-allocated and never moved, so two pointers are equal exactly
  when the positions are); `nullptr` is `none`.
* Block ids and variable ids are C++ `int`s that are only ever produced by counting
  up from zero; they are natural numbers here.
-/

namespace sorbet.cfg

/-! ## Data model -/

/-- Modelled from the spec: the variable handle is declared in a header that is not part
of the sources.  A variable is an integer-identified slot (`id`).  Whether the handle
`exists` (it is not the "no variable" sentinel) and whether, used as an exit condition, it
has been set (`isCondSet`) are kept as observations of the handle, so that nothing is
assumed about how the header encodes them. -/
structure LocalRef where
  id : Nat
  exists_ : Bool
  isCondSet : Bool
  deriving DecidableEq, Repr

/-- Modelled from the spec: `noVariable()` is the distinguished sentinel meaning "no
variable"; it does not exist, and an exit carrying it has had its condition set. -/
def LocalRef.noVariable : LocalRef := { id := 0, exists_ := false, isCondSet := true }

/-- A plain variable with the given id. -/
def LocalRef.ofId (n : Nat) : LocalRef := { id := n, exists_ := true, isCondSet := true }

/-- Modelled from the spec: the handle held by the exit of a freshly allocated block,
before the builder assigns a condition. -/
def LocalRef.unset : LocalRef := { id := 0, exists_ := false, isCondSet := false }

/-- A use of a variable as an operand (`VariableUseSite`): the source only ever looks at
`.variable_`. -/
structure VariableUseSite where
  variable_ : LocalRef
  deriving DecidableEq, Repr

/-- The instruction kinds inspected by `findAllReadsAndWrites` through
`cast_instruction<...>`, with the operand slots it reads.  `Other` stands for every
instruction kind that matches none of the casts of the pass. -/
inductive Instruction where
  | Ident (what : LocalRef)
  | Send (recv : VariableUseSite) (args : List VariableUseSite)
  | TAbsurd (what : VariableUseSite)
  | Return (what : VariableUseSite)
  | BlockReturn (what : VariableUseSite)
  | Cast (value : VariableUseSite)
  | LoadSelf (fallback : LocalRef)
  | SolveConstraint (send : LocalRef)
  | Alias
  | Other
  deriving DecidableEq, Repr

/-- The test `cast_instruction<Alias>(value) != nullptr`. -/
def Instruction.isAlias : Instruction → Bool
  | .Alias => true
  | _ => false

/-- One assignment `bind := value`. -/
structure Binding where
  bind : VariableUseSite
  value : Instruction
  deriving DecidableEq, Repr

/-- The exit of a block: condition and the two successor pointers. -/
structure BlockExit where
  cond : VariableUseSite
  thenb : Option Nat
  elseb : Option Nat
  deriving DecidableEq, Repr

/-- A basic block. -/
structure BasicBlock where
  id : Nat
  outerLoops : Int
  rubyBlockId : Int
  exprs : List Binding
  bexit : BlockExit
  backEdges : List Nat
  deriving DecidableEq, Repr

/-- The block built by `make_unique<BasicBlock>()`: no bindings, no back edges, null
successors and an exit condition that has not been set. -/
def BasicBlock.fresh : BasicBlock :=
  { id := 0, outerLoops := 0, rubyBlockId := 0, exprs := [],
    bexit := { cond := { variable_ := LocalRef.unset }, thenb := none, elseb := none },
    backEdges := [] }

/-- The control-flow graph of one method. -/
structure CFG where
  basicBlocks : List BasicBlock
  maxBasicBlockId : Nat
  maxVariableId : Nat
  deriving DecidableEq, Repr

/-! ## Construction -/

/-- The body of `CFG::freshBlock`: the new block takes the current value of the id counter,
the counter is incremented, and the block is appended to the block list.  The pointer that
is returned is the position of the new block. -/
def CFG.freshBlock (cfg : CFG) (outerLoops rubyBlockId : Int) : CFG × Nat :=
  let id := cfg.maxBasicBlockId
  let r : BasicBlock :=
    { BasicBlock.fresh with id := id, outerLoops := outerLoops, rubyBlockId := rubyBlockId }
  ({ cfg with maxBasicBlockId := cfg.maxBasicBlockId + 1,
              basicBlocks := cfg.basicBlocks ++ [r] },
   cfg.basicBlocks.length)

/-- The accessor `deadBlock()`, the pointer to `basicBlocks[1]`. -/
def CFG.deadBlock (_cfg : CFG) : Nat := 1

/-- Assignment through a block pointer: `p->field = ...` applied to the block list. -/
def CFG.modifyBlock (cfg : CFG) (p : Nat) (f : BasicBlock → BasicBlock) : CFG :=
  { cfg with basicBlocks := cfg.basicBlocks.modify f p }

/-- Modelled from the spec: the state of a `CFG` object before the constructor body runs
(the member initialisers are in the header): no block, both counters at zero. -/
def CFG.initial : CFG := { basicBlocks := [], maxBasicBlockId := 0, maxVariableId := 0 }

/-- The constructor `CFG::CFG()`. -/
def CFG.new : CFG :=
  let c0 := (CFG.initial.freshBlock 0 0).1
  let c1 := (c0.freshBlock 0 0).1
  let c2 := c1.modifyBlock c1.deadBlock
    (fun b => { b with bexit := { b.bexit with elseb := some c1.deadBlock } })
  let c3 := c2.modifyBlock c2.deadBlock
    (fun b => { b with bexit := { b.bexit with thenb := some c2.deadBlock } })
  c3.modifyBlock c3.deadBlock
    (fun b => { b with bexit := { b.bexit with cond := { variable_ := LocalRef.noVariable } } })

/-! ## The reads / writes / dead pass -/

/-- A `std::vector<bool>`. -/
abbrev Row := List Bool

/-- A `std::vector<std::vector<bool>>`. -/
abbrev Table := List Row

/-- The method `resize(n)` of a vector: truncate, or extend with value-initialised entries. -/
def resize {α : Type} (dflt : α) (xs : List α) (n : Nat) : List α :=
  xs.take n ++ List.replicate (n - xs.length) dflt

/-- The assignment `xs[i] = x`, defined only when `i` is in range. -/
def setAt {α : Type} (xs : List α) (i : Nat) (x : α) : Option (List α) :=
  if i < xs.length then some (xs.set i x) else none

/-- The result type `CFG::ReadsAndWrites`. -/
structure ReadsAndWrites where
  reads : Table
  writes : Table
  dead : Table
  deriving DecidableEq, Repr

/-- The four rows the first pass holds references to while it scans one block:
`blockReads`, `blockWrites`, `blockDead` and `blockReadsAndWrites`. -/
structure BlockRows where
  reads : Row
  writes : Row
  dead : Row
  readsAndWrites : Row
  deriving DecidableEq, Repr

/-- The pair of statements `blockReads[v] = true; blockReadsAndWrites[v] = true;`. -/
def markRead (st : BlockRows) (v : Nat) : Option BlockRows := do
  let r ← setAt st.reads v true
  let rw ← setAt st.readsAndWrites v true
  pure { st with reads := r, readsAndWrites := rw }

/-- The loop `for (auto &arg : v->args)` of the `Send` case. -/
def markArgs : BlockRows → List VariableUseSite → Option BlockRows
  | st, [] => some st
  | st, arg :: rest => do
    let st1 ← markRead st arg.variable_.id
    markArgs st1 rest

/-- The `if / else if` chain over the instruction kinds (source lines 63-91). -/
def markInstruction (st : BlockRows) : Instruction → Option BlockRows
  | .Ident what => markRead st what.id
  | .Send recv args => do
    let st1 ← markRead st recv.variable_.id
    markArgs st1 args
  | .TAbsurd what => markRead st what.variable_.id
  | .Return what => markRead st what.variable_.id
  | .BlockReturn what => markRead st what.variable_.id
  | .Cast value => markRead st value.variable_.id
  | .LoadSelf fallback => markRead st fallback.id
  | .SolveConstraint send => markRead st send.id
  | .Alias => some st
  | .Other => some st

/-- The body of the loop over the bindings of a block (source lines 51-96).
`isAliasForGlobal` is the external predicate `LocalRef::isAliasForGlobal(cfg, ctx)`. -/
def bindingStep (isAliasForGlobal : LocalRef → Bool) (st : BlockRows) (bind : Binding) :
    Option BlockRows := do
  let w ← setAt st.writes bind.bind.variable_.id true
  let rw ← setAt st.readsAndWrites bind.bind.variable_.id true
  let r ←
    if isAliasForGlobal bind.bind.variable_ && !bind.value.isAlias then
      setAt st.reads bind.bind.variable_.id true
    else some st.reads
  let st2 ← markInstruction { st with reads := r, writes := w, readsAndWrites := rw } bind.value
  let fnd ← st2.reads[bind.bind.variable_.id]?
  if !fnd then do
    let d ← setAt st2.dead bind.bind.variable_.id true
    pure { st2 with dead := d }
  else pure st2

/-- The loop `for (Binding &bind : bb->exprs)`. -/
def scanBindings (isAliasForGlobal : LocalRef → Bool) :
    BlockRows → List Binding → Option BlockRows
  | st, [] => some st
  | st, bind :: rest => do
    let st1 ← bindingStep isAliasForGlobal st bind
    scanBindings isAliasForGlobal st1 rest

/-- The statement after the binding loop (source lines 98-101). -/
def markExit (st : BlockRows) (bexit : BlockExit) : Option BlockRows :=
  if bexit.cond.variable_.exists_ then markRead st bexit.cond.variable_.id else some st

/-- What the first pass does to the four rows of one block once they have been resized. -/
def scanBlock (isAliasForGlobal : LocalRef → Bool) (st : BlockRows) (bb : BasicBlock) :
    Option BlockRows := do
  let st1 ← scanBindings isAliasForGlobal st bb.exprs
  markExit st1 bb.bexit

/-- The tables of the first pass: `target.reads`, `target.writes`, `target.dead` and the
local `readsAndWrites`. -/
structure PassState where
  reads : Table
  writes : Table
  dead : Table
  readsAndWrites : Table
  deriving DecidableEq, Repr

/-- The body of the loop over the blocks (source lines 42-101): the four rows at index
`bb->id` are resized to `maxVariableId`, scanned, and are part of the tables again. -/
def blockStep (isAliasForGlobal : LocalRef → Bool) (maxVariableId : Nat) (ps : PassState)
    (bb : BasicBlock) : Option PassState := do
  let blockWrites ← ps.writes[bb.id]?
  let blockReads ← ps.reads[bb.id]?
  let blockDead ← ps.dead[bb.id]?
  let blockReadsAndWrites ← ps.readsAndWrites[bb.id]?
  let st ← scanBlock isAliasForGlobal
    { reads := resize false blockReads maxVariableId,
      writes := resize false blockWrites maxVariableId,
      dead := resize false blockDead maxVariableId,
      readsAndWrites := resize false blockReadsAndWrites maxVariableId } bb
  pure { reads := ps.reads.set bb.id st.reads,
         writes := ps.writes.set bb.id st.writes,
         dead := ps.dead.set bb.id st.dead,
         readsAndWrites := ps.readsAndWrites.set bb.id st.readsAndWrites }

/-- The loop `for (unique_ptr<BasicBlock> &bb : this->basicBlocks)`. -/
def firstPass (isAliasForGlobal : LocalRef → Bool) (maxVariableId : Nat) :
    PassState → List BasicBlock → Option PassState
  | ps, [] => some ps
  | ps, bb :: rest => do
    let ps1 ← blockStep isAliasForGlobal maxVariableId ps bb
    firstPass isAliasForGlobal maxVariableId ps1 rest

/-- The tables as they are before the first pass: `maxBasicBlockId` empty rows each. -/
def PassState.init (maxBasicBlockId : Nat) : PassState :=
  { reads := resize [] [] maxBasicBlockId,
    writes := resize [] [] maxBasicBlockId,
    dead := resize [] [] maxBasicBlockId,
    readsAndWrites := List.replicate maxBasicBlockId [] }

/-- The inner loop of "privates1" (source lines 110-119) over the entries `el` of one row,
`local` being the running index. -/
def tallyRow (blockId : Nat) : List Bool → Nat → List (Nat × Nat) → Option (List (Nat × Nat))
  | [], _, usageCounts => some usageCounts
  | el :: rest, local_, usageCounts =>
    if el then do
      let u ← usageCounts[local_]?
      let u1 : Nat × Nat := if u.1 = 0 then (u.1, blockId) else u
      let usageCounts1 ← setAt usageCounts local_ (u1.1 + 1, u1.2)
      tallyRow blockId rest (local_ + 1) usageCounts1
    else tallyRow blockId rest (local_ + 1) usageCounts

/-- The outer loop of "privates1": `for (blockId = 0; blockId < maxBasicBlockId; blockId++)`,
here over the block ids `blockId, blockId + 1, ..., blockId + n - 1`. -/
def tallyBlocks (readsAndWrites : Table) :
    Nat → Nat → List (Nat × Nat) → Option (List (Nat × Nat))
  | 0, _, usageCounts => some usageCounts
  | n + 1, blockId, usageCounts => do
    let row ← readsAndWrites[blockId]?
    let usageCounts1 ← tallyRow blockId row 0 usageCounts
    tallyBlocks readsAndWrites n (blockId + 1) usageCounts1

/-- The assignment `target.writes[b][v] = false`. -/
def clearWrite (writes : Table) (b v : Nat) : Option Table := do
  let row ← writes[b]?
  let row1 ← setAt row v false
  setAt writes b row1

/-- The loop of "privates2" (source lines 124-130). -/
def suppress : List (Nat × Nat) → Nat → Table → Option Table
  | [], _, writes => some writes
  | usages :: rest, local_, writes =>
    if usages.1 = 1 then do
      let writes1 ← clearWrite writes usages.2 local_
      suppress rest (local_ + 1) writes1
    else suppress rest (local_ + 1) writes

/-- The function `CFG::findAllReadsAndWrites`.  The result is `none` exactly when the
source would index a vector out of range. -/
def CFG.findAllReadsAndWrites (cfg : CFG) (isAliasForGlobal : LocalRef → Bool) :
    Option ReadsAndWrites := do
  let ps ← firstPass isAliasForGlobal cfg.maxVariableId
    (PassState.init cfg.maxBasicBlockId) cfg.basicBlocks
  let usageCounts ← tallyBlocks ps.readsAndWrites cfg.maxBasicBlockId 0
    (resize (0, 0) [] cfg.maxVariableId)
  let writes ← suppress usageCounts 0 ps.writes
  pure { reads := ps.reads, writes := writes, dead := ps.dead }

/-! ## The structural validator -/

/-- Modelled from the spec: `BlockExit::isCondSet()` is declared in the header; it reports
whether the condition of the exit has been assigned. -/
def BlockExit.isCondSet (e : BlockExit) : Bool := e.cond.variable_.isCondSet

/-- The call `absl::c_count(edges, p)`. -/
def c_count (edges : List Nat) (p : Nat) : Nat := edges.count p

/-- The check `ENFORCE(c, ...)`: a failed check is fatal. -/
def enforce (c : Bool) : Option Unit := if c then some () else none

/-- The body of the loop of `CFG::sanityCheck` for the block `bb` stored at position `p`.
The result is `none` when an `ENFORCE` fails, and also when the source would dereference a
null or dangling block pointer or index `basicBlocks[1]` out of range. -/
def sanityCheckBlock (cfg : CFG) (p : Nat) (bb : BasicBlock) : Option Unit := do
  enforce bb.bexit.isCondSet
  let _ ← cfg.basicBlocks[cfg.deadBlock]?
  if p = cfg.deadBlock then pure ()
  else do
    let thenb ← bb.bexit.thenb
    let thenBlock ← cfg.basicBlocks[thenb]?
    let elseb ← bb.bexit.elseb
    let elseBlock ← cfg.basicBlocks[elseb]?
    let thenCount := c_count thenBlock.backEdges p
    let elseCount := c_count elseBlock.backEdges p
    enforce (thenCount == 1)
    enforce (elseCount == 1)
    if bb.bexit.thenb = bb.bexit.elseb then
      enforce (!bb.bexit.cond.variable_.exists_)
    else
      enforce bb.bexit.cond.variable_.exists_

/-- The loop `for (auto &bb : this->basicBlocks)` of `CFG::sanityCheck`, `p` being the
position of the head of the list. -/
def sanityCheckLoop (cfg : CFG) : Nat → List BasicBlock → Option Unit
  | _, [] => some ()
  | p, bb :: rest => do
    sanityCheckBlock cfg p bb
    sanityCheckLoop cfg (p + 1) rest

/-- The function `CFG::sanityCheck`; `some ()` is a run in which every `ENFORCE` passes. -/
def CFG.sanityCheck (cfg : CFG) (debug_mode : Bool) : Option Unit :=
  if !debug_mode then some () else sanityCheckLoop cfg 0 cfg.basicBlocks

/-! ## Vocabulary of the statements -/

/-- The CFGs that `CFG::CFG()` followed by calls of `freshBlock` can produce. -/
inductive Reachable : CFG → Prop
  | new : Reachable CFG.new
  | freshBlock {cfg : CFG} (outerLoops rubyBlockId : Int) :
      Reachable cfg → Reachable (cfg.freshBlock outerLoops rubyBlockId).1

/-- A sequence of `freshBlock` calls, one per pair `(outerLoops, rubyBlockId)`; the pointers
returned by the calls are collected in call order. -/
def CFG.freshBlocks : CFG → List (Int × Int) → CFG × List Nat
  | cfg, [] => (cfg, [])
  | cfg, call :: rest =>
    let r := cfg.freshBlock call.1 call.2
    let rs := r.1.freshBlocks rest
    (rs.1, r.2 :: rs.2)

/-- The dense-index invariant: the block at position `i` has id `i`, the ids are pairwise
distinct, and the id counter equals the number of blocks. -/
def CFG.DenseIndex (cfg : CFG) : Prop :=
  (∀ (i : Nat) (b : BasicBlock), cfg.basicBlocks[i]? = some b → b.id = i) ∧
  (cfg.basicBlocks.map (fun b => b.id)).Nodup ∧
  cfg.maxBasicBlockId = cfg.basicBlocks.length

/-- The variables an instruction declares as read operands. -/
def Instruction.readIds : Instruction → List Nat
  | .Ident what => [what.id]
  | .Send recv args => recv.variable_.id :: args.map (fun a => a.variable_.id)
  | .TAbsurd what => [what.variable_.id]
  | .Return what => [what.variable_.id]
  | .BlockReturn what => [what.variable_.id]
  | .Cast value => [value.variable_.id]
  | .LoadSelf fallback => [fallback.id]
  | .SolveConstraint send => [send.id]
  | .Alias => []
  | .Other => []

/-- The destination of a binding. -/
def Binding.dest (bind : Binding) : Nat := bind.bind.variable_.id

/-- The global-alias rule applies to the binding: its destination is an alias for a global
and its instruction is not an `Alias`. -/
def Binding.aliasRule (isAliasForGlobal : LocalRef → Bool) (bind : Binding) : Bool :=
  isAliasForGlobal bind.bind.variable_ && !bind.value.isAlias

/-- The binding marks `v` as read: `v` is a read operand of its instruction, or `v` is its
destination and the global-alias rule applies. -/
def Binding.marksRead (isAliasForGlobal : LocalRef → Bool) (bind : Binding) (v : Nat) : Prop :=
  v ∈ bind.value.readIds ∨ (bind.dest = v ∧ bind.aliasRule isAliasForGlobal = true)

/-- The exit of the block has an existing condition variable, and it is `v`. -/
def BasicBlock.exitReads (bb : BasicBlock) (v : Nat) : Prop :=
  bb.bexit.cond.variable_.exists_ = true ∧ bb.bexit.cond.variable_.id = v

/-- Some binding of the block has destination `v`. -/
def BasicBlock.writesVar (bb : BasicBlock) (v : Nat) : Prop :=
  ∃ bind ∈ bb.exprs, bind.dest = v

/-- The block touches `v`: as a binding destination, as an instruction read operand, or as
its existing exit condition variable. -/
def BasicBlock.touches (bb : BasicBlock) (v : Nat) : Prop :=
  (∃ bind ∈ bb.exprs, bind.dest = v ∨ v ∈ bind.value.readIds) ∨ bb.exitReads v

/-- The three ways in which the pass sets `reads[b][v]`. -/
def BasicBlock.readsVar (isAliasForGlobal : LocalRef → Bool) (bb : BasicBlock) (v : Nat) :
    Prop :=
  (∃ bind ∈ bb.exprs, v ∈ bind.value.readIds) ∨
  bb.exitReads v ∨
  (∃ bind ∈ bb.exprs, bind.dest = v ∧ bind.value.isAlias = false ∧
    isAliasForGlobal bind.bind.variable_ = true)

/-- Some binding of the list, at a position `i`, has destination `v` while neither it nor
an earlier binding marks `v` as read. -/
def deadIn (isAliasForGlobal : LocalRef → Bool) (exprs : List Binding) (v : Nat) : Prop :=
  ∃ (i : Nat) (bind : Binding), exprs[i]? = some bind ∧ bind.dest = v ∧
    ∀ (j : Nat) (bind1 : Binding), j ≤ i → exprs[j]? = some bind1 → ¬ bind1.marksRead isAliasForGlobal v

/-- Every variable id the pass uses as an index in the block is below `n`. -/
def BasicBlock.varsBelow (bb : BasicBlock) (n : Nat) : Prop :=
  (∀ bind ∈ bb.exprs, bind.dest < n ∧ ∀ v ∈ bind.value.readIds, v < n) ∧
  (bb.bexit.cond.variable_.exists_ = true → bb.bexit.cond.variable_.id < n)

/-- The precondition of the pass: block ids are pairwise distinct and below
`maxBasicBlockId`, and every variable id occurring as a binding destination, an instruction
read operand or an existing exit condition variable is below `maxVariableId`. -/
structure CFG.IdsInRange (cfg : CFG) : Prop where
  ids_nodup : (cfg.basicBlocks.map (fun b => b.id)).Nodup
  ids_lt : ∀ b ∈ cfg.basicBlocks, b.id < cfg.maxBasicBlockId
  vars_lt : ∀ b ∈ cfg.basicBlocks, b.varsBelow cfg.maxVariableId

/-- The entry `t[b][v]` of a table, when both indices are in range. -/
def entry (t : Table) (b v : Nat) : Option Bool := do
  let row ← t[b]?
  row[v]?

/-- The block `freshBlock` allocates for the call `call` when the id counter is `id`. -/
def allocated (call : Int × Int) (id : Nat) : BasicBlock :=
  { BasicBlock.fresh with id := id, outerLoops := call.1, rubyBlockId := call.2 }

/-- The blocks a sequence of `freshBlock` calls allocates, the counter starting at `id`. -/
def allocatedFrom : Nat → List (Int × Int) → List BasicBlock
  | _, [] => []
  | id, call :: rest => allocated call id :: allocatedFrom (id + 1) rest

/-- The four rows of a block all have `n` entries. -/
def BlockRows.Sized (n : Nat) (st : BlockRows) : Prop :=
  st.reads.length = n ∧ st.writes.length = n ∧ st.dead.length = n ∧
  st.readsAndWrites.length = n

/-- The bit `v` of a row, `false` outside the row. -/
def bit (row : Row) (v : Nat) : Bool := row.getD v false

/-- The rows `st1` are the rows `st` with the variables `ids` marked as read. -/
def BlockRows.ReadsAdded (st st1 : BlockRows) (ids : List Nat) : Prop :=
  st1.writes = st.writes ∧ st1.dead = st.dead ∧
  (∀ u, bit st1.reads u = (bit st.reads u || decide (u ∈ ids))) ∧
  (∀ u, bit st1.readsAndWrites u = (bit st.readsAndWrites u || decide (u ∈ ids)))

/-- Four rows of `n` cleared bits: the rows of a block once they have been resized, when
the block is the first one with its id. -/
def BlockRows.zero (n : Nat) : BlockRows :=
  { reads := List.replicate n false, writes := List.replicate n false,
    dead := List.replicate n false, readsAndWrites := List.replicate n false }

/-- The four tables of the first pass all have `m` rows. -/
def PassState.Sized (m : Nat) (ps : PassState) : Prop :=
  ps.reads.length = m ∧ ps.writes.length = m ∧ ps.dead.length = m ∧
  ps.readsAndWrites.length = m

/-- The four rows at index `j` of the tables of the first pass. -/
def PassState.rowsAt (ps : PassState) (j : Nat) : Option BlockRows :=
  match ps.reads[j]?, ps.writes[j]?, ps.dead[j]?, ps.readsAndWrites[j]? with
  | some r, some w, some d, some rw => some { reads := r, writes := w, dead := d, readsAndWrites := rw }
  | _, _, _, _ => none

/-- The tables with the four rows at index `j` replaced. -/
def PassState.setRows (ps : PassState) (j : Nat) (st : BlockRows) : PassState :=
  { reads := ps.reads.set j st.reads, writes := ps.writes.set j st.writes,
    dead := ps.dead.set j st.dead,
    readsAndWrites := ps.readsAndWrites.set j st.readsAndWrites }

/-- Four empty rows. -/
def BlockRows.empty : BlockRows := { reads := [], writes := [], dead := [], readsAndWrites := [] }

/-- The bit `t[j][v]` of a table, `false` outside the table. -/
def tbit (t : Table) (j v : Nat) : Bool := bit (t.getD j []) v

/-- What the body of the inner loop of "privates1" does to one usage count when the entry
of block `blockId` is set. -/
def bump (blockId : Nat) (u : Nat × Nat) : Nat × Nat :=
  ((if u.1 = 0 then (u.1, blockId) else u).1 + 1, (if u.1 = 0 then (u.1, blockId) else u).2)

/-- The usage count of the single variable `v` after the blocks `j, ..., j + k - 1` have
been tallied. -/
def tallyVar (t : Table) (v : Nat) : Nat → Nat → Nat × Nat → Nat × Nat
  | 0, _, u => u
  | k + 1, j, u => tallyVar t v k (j + 1) (if tbit t j v then bump j u else u)

/-- What a usage count knows about the blocks below `j` that have the bit of `v` set. -/
def TallyInv (t : Table) (v j : Nat) (u : Nat × Nat) : Prop :=
  (u.1 = 0 → ∀ i, i < j → tbit t i v = false) ∧
  (u.1 = 1 → u.2 < j ∧ tbit t u.2 v = true ∧ ∀ i, i < j → tbit t i v = true → i = u.2) ∧
  (2 ≤ u.1 → ∃ i1 i2, i1 < j ∧ i2 < j ∧ i1 ≠ i2 ∧ tbit t i1 v = true ∧ tbit t i2 v = true)

instance (bb : BasicBlock) (n : Nat) : Decidable (bb.varsBelow n) := by
  unfold BasicBlock.varsBelow
  infer_instance

/-- The binding `x := copy(y)` between the plain variables with ids `x` and `y`. -/
def copyOf (x y : Nat) : Binding :=
  { bind := { variable_ := LocalRef.ofId x }, value := Instruction.Ident (LocalRef.ofId y) }

/-- An unconditional exit to the dead block. -/
def jumpToDead : BlockExit :=
  { cond := { variable_ := LocalRef.noVariable }, thenb := some 1, elseb := some 1 }

/-- A method with three variables and one block besides entry and dead block: block 2
holds the single binding `v1 := copy(v2)` and jumps to the dead block. -/
def exampleSingleCopy : CFG :=
  { (((CFG.new.freshBlock 0 0).1).modifyBlock 2
      (fun b => { b with exprs := [copyOf 1 2], bexit := jumpToDead })) with
    maxVariableId := 3 }

/-- A method with four variables: block 2 holds `v1 := copy(v2)` followed by
`v3 := copy(v1)` and jumps to the dead block. -/
def exampleTwoCopies : CFG :=
  { (((CFG.new.freshBlock 0 0).1).modifyBlock 2
      (fun b => { b with exprs := [copyOf 1 2, copyOf 3 1], bexit := jumpToDead })) with
    maxVariableId := 4 }

/-- A method with four variables in which `v1` crosses blocks: the entry block holds
`v1 := copy(v2)`, block 2 holds `v3 := copy(v1)`. -/
def exampleCrossBlock : CFG :=
  { ((((CFG.new.freshBlock 0 0).1).modifyBlock 0
      (fun b => { b with exprs := [copyOf 1 2],
                         bexit := { cond := { variable_ := LocalRef.noVariable },
                                    thenb := some 2, elseb := some 2 } })).modifyBlock 2
      (fun b => { b with exprs := [copyOf 3 1], bexit := jumpToDead })) with
    maxVariableId := 4 }

/-- A wired method without variables: the entry block jumps unconditionally to the dead
block, whose back-edge list records the entry block. -/
def exampleWired : CFG :=
  (CFG.new.modifyBlock 0 (fun b => { b with bexit := jumpToDead })).modifyBlock 1
    (fun b => { b with backEdges := [0] })

/-- The member function `findAllReadsAndWrites` as a transformer of the CFG object it is
called on, paired with its return value: the body assigns through none of `this`, `bb` and
`bind`, so the object after the call is the object before it. -/
def CFG.callFindAllReadsAndWrites (cfg : CFG) (isAliasForGlobal : LocalRef → Bool) :
    CFG × Option ReadsAndWrites :=
  (cfg, cfg.findAllReadsAndWrites isAliasForGlobal)

/-- Two blocks agree on everything the pass reads of a block: id, bindings and exit
condition variable. -/
def BasicBlock.SameContents (b1 b2 : BasicBlock) : Prop :=
  b1.id = b2.id ∧ b1.exprs = b2.exprs ∧ b1.bexit.cond = b2.bexit.cond

/-- A method with five variables: block 2 holds `v1 := copy(v2)`, `v1 := copy(v4)` and
`v3 := copy(v1)`, so `v1` is read after its second write. -/
def exampleRewrite : CFG :=
  { (((CFG.new.freshBlock 0 0).1).modifyBlock 2
      (fun b => { b with exprs := [copyOf 1 2, copyOf 1 4, copyOf 3 1],
                         bexit := jumpToDead })) with
    maxVariableId := 5 }

/-- A method with three variables: block 2 holds `v1 := copy(v2)` and branches on `v1`
to the entry block or to the dead block. -/
def exampleExitOnWritten : CFG :=
  { (((CFG.new.freshBlock 0 0).1).modifyBlock 2
      (fun b => { b with exprs := [copyOf 1 2],
                         bexit := { cond := { variable_ := LocalRef.ofId 1 },
                                    thenb := some 0, elseb := some 1 } })) with
    maxVariableId := 3 }

/-- The method `exampleSingleCopy` with one more binding, in the entry block:
`v0 := copy(v1)`, which reads the variable written by block 2. -/
def exampleSharedCopy : CFG :=
  exampleSingleCopy.modifyBlock 0 (fun b => { b with exprs := [copyOf 0 1] })

/-- The method `exampleWired` after the exit condition of its dead block has been left
unset; the entry block is wired as before. -/
def exampleDeadUnset : CFG :=
  exampleWired.modifyBlock 1
    (fun b => { b with bexit := { b.bexit with cond := { variable_ := LocalRef.unset } } })

/-- The rules `sanityCheck` enforces on the block `b` stored at position `p`: the exit
condition variable exists exactly when the two targets differ, and `b` occurs exactly once
in the back-edge list of its then-target and, if the targets differ, of its else-target. -/
def CFG.WiredAt (cfg : CFG) (p : Nat) (b : BasicBlock) : Prop :=
  (b.bexit.cond.variable_.exists_ = true ↔ b.bexit.thenb ≠ b.bexit.elseb) ∧
  (∃ t tb, b.bexit.thenb = some t ∧ cfg.basicBlocks[t]? = some tb ∧
    tb.backEdges.count p = 1) ∧
  (b.bexit.thenb ≠ b.bexit.elseb →
    ∃ e eb, b.bexit.elseb = some e ∧ cfg.basicBlocks[e]? = some eb ∧
      eb.backEdges.count p = 1)

/-! ## The graph-description export -/

/-- What `fmt` writes for a `{}` whose argument is a block id. -/
def fmtId (id : Nat) : String := Nat.repr id

/-- The label argument of the node declaration:
`fmt::map_join(lines.begin(), lines.end(), "\\l", ...)` over `absl::StrSplit(text, "\n")`,
each line going through `absl::CEscape`, which is a parameter here. -/
def joinLabel (cEscape : String → String) (text : String) : String :=
  "\\l".intercalate ((text.splitOn "\n").map cEscape)

/-- The first `format_to` of `CFG::toString` and of `CFG::showRaw`, which differ in the
shape given to the entry block only. -/
def clusterHeader (symbolName entryShape : String) : String :=
  "subgraph \"cluster_" ++ symbolName ++ "\" \x7b\n" ++
  "    label = \"" ++ symbolName ++ "\";\n" ++
  "    color = blue;\n" ++
  "    \"bb" ++ symbolName ++ "_0\" [shape = " ++ entryShape ++ "];\n" ++
  "    \"bb" ++ symbolName ++ "_1\" [shape = parallelogram];\n\n"

/-- The body of the loop over the blocks (source lines 171-187 and 204-220): the text
appended to the buffer `buf` for `basicBlock`, whose dump is `text`.  The result is `none`
when a successor pointer that is read is null or dangling. -/
def renderBlock (cfg : CFG) (cEscape : String → String) (symbolName : String)
    (text : String) (buf : String) (basicBlock : BasicBlock) : Option String := do
  let thenb ← basicBlock.bexit.thenb
  let thenBlock ← cfg.basicBlocks[thenb]?
  let buf1 := buf ++
    ("    \"bb" ++ symbolName ++ "_" ++ fmtId basicBlock.id ++ "\" [\n" ++
     "        label = \"" ++ joinLabel cEscape text ++ "\\l\"\n" ++
     "    ];\n\n" ++
     "    \"bb" ++ symbolName ++ "_" ++ fmtId basicBlock.id ++ "\" -> \"bb" ++ symbolName ++
       "_" ++ fmtId thenBlock.id ++ "\" [style=\"bold\"];\n")
  if basicBlock.bexit.thenb ≠ basicBlock.bexit.elseb then do
    let elseb ← basicBlock.bexit.elseb
    let elseBlock ← cfg.basicBlocks[elseb]?
    pure (buf1 ++
      ("    \"bb" ++ symbolName ++ "_" ++ fmtId basicBlock.id ++ "\" -> \"bb" ++ symbolName ++
        "_" ++ fmtId elseBlock.id ++ "\" [style=\"tapered\"];\n\n"))
  else pure buf1

/-- The loop `for (auto &basicBlock : this->basicBlocks)` of both renderers; `blockText`
is the dump of a block (`BasicBlock::toString` or `BasicBlock::showRaw`). -/
def renderBlocks (cfg : CFG) (cEscape : String → String) (symbolName : String)
    (blockText : BasicBlock → String) : String → List BasicBlock → Option String
  | buf, [] => some buf
  | buf, basicBlock :: rest => do
    let buf1 ← renderBlock cfg cEscape symbolName (blockText basicBlock) buf basicBlock
    renderBlocks cfg cEscape symbolName blockText buf1 rest

/-- The function `CFG::toString`.  The name of the method symbol, the dump of a block
(`BasicBlock::toString`) and `absl::CEscape` are parameters. -/
def CFG.toString (cfg : CFG) (cEscape : String → String) (symbolName : String)
    (blockToString : BasicBlock → String) : Option String := do
  let buf ← renderBlocks cfg cEscape symbolName blockToString
    (clusterHeader symbolName "invhouse") cfg.basicBlocks
  pure (buf ++ "\x7d")

/-- The function `CFG::showRaw`, with the same parameters (the dump of a block being
`BasicBlock::showRaw`). -/
def CFG.showRaw (cfg : CFG) (cEscape : String → String) (symbolName : String)
    (blockShowRaw : BasicBlock → String) : Option String := do
  let buf ← renderBlocks cfg cEscape symbolName blockShowRaw
    (clusterHeader symbolName "box") cfg.basicBlocks
  pure (buf ++ "\x7d")

/-- An element of a graph description: the declaration of a node, a primary (bold) edge or
a secondary (tapered) edge. -/
inductive GraphItem where
  | node (id : Nat) (label : String)
  | primaryEdge (src dst : Nat)
  | secondaryEdge (src dst : Nat)
  deriving DecidableEq, Repr

/-- The item is a node declaration. -/
def GraphItem.isNode : GraphItem → Bool
  | .node _ _ => true
  | _ => false

/-- The item is a primary edge. -/
def GraphItem.isPrimary : GraphItem → Bool
  | .primaryEdge _ _ => true
  | _ => false

/-- The item is a secondary edge. -/
def GraphItem.isSecondary : GraphItem → Bool
  | .secondaryEdge _ _ => true
  | _ => false

/-- The text of one element of the graph description. -/
def GraphItem.text (symbolName : String) : GraphItem → String
  | .node id label =>
    "    \"bb" ++ symbolName ++ "_" ++ fmtId id ++ "\" [\n" ++
    "        label = \"" ++ label ++ "\\l\"\n" ++
    "    ];\n\n"
  | .primaryEdge src dst =>
    "    \"bb" ++ symbolName ++ "_" ++ fmtId src ++ "\" -> \"bb" ++ symbolName ++
      "_" ++ fmtId dst ++ "\" [style=\"bold\"];\n"
  | .secondaryEdge src dst =>
    "    \"bb" ++ symbolName ++ "_" ++ fmtId src ++ "\" -> \"bb" ++ symbolName ++
      "_" ++ fmtId dst ++ "\" [style=\"tapered\"];\n\n"

/-- The concatenation of a list of texts. -/
def concatTexts : List String → String
  | [] => ""
  | s :: rest => s ++ concatTexts rest

/-- The elements the rendering shows for one block, following the description of the
export: one node for the block, one primary edge to its then-target and, when the
else-target differs from the then-target, one secondary edge to the else-target. -/
def blockItems (cfg : CFG) (label : BasicBlock → String) (bb : BasicBlock) :
    Option (List GraphItem) :=
  match bb.bexit.thenb.bind (fun t => cfg.basicBlocks[t]?) with
  | none => none
  | some thenBlock =>
    if bb.bexit.thenb = bb.bexit.elseb then
      some [GraphItem.node bb.id (label bb), GraphItem.primaryEdge bb.id thenBlock.id]
    else
      match bb.bexit.elseb.bind (fun e => cfg.basicBlocks[e]?) with
      | none => none
      | some elseBlock =>
        some [GraphItem.node bb.id (label bb), GraphItem.primaryEdge bb.id thenBlock.id,
              GraphItem.secondaryEdge bb.id elseBlock.id]

/-- The elements of the graph description of a list of blocks, block by block in list
order. -/
def graphSegments (cfg : CFG) (label : BasicBlock → String) :
    List BasicBlock → Option (List (List GraphItem))
  | [] => some []
  | bb :: rest =>
    match blockItems cfg label bb, graphSegments cfg label rest with
    | some items, some segments => some (items :: segments)
    | _, _ => none

/-- The text of a graph description: cluster header, elements in order, closing brace. -/
def describe (symbolName entryShape : String) (segments : List (List GraphItem)) : String :=
  clusterHeader symbolName entryShape ++
    concatTexts (segments.flatten.map (GraphItem.text symbolName)) ++ "\x7d"

/-- A method whose entry block branches on `v1` to block 2 or to the dead block; block 2
jumps to the dead block. -/
def exampleBranch : CFG :=
  { ((((CFG.new.freshBlock 0 0).1).modifyBlock 0
      (fun b => { b with exprs := [copyOf 1 2],
                         bexit := { cond := { variable_ := LocalRef.ofId 1 },
                                    thenb := some 2, elseb := some 1 } })).modifyBlock 2
      (fun b => { b with bexit := jumpToDead })) with
    maxVariableId := 3 }

/-! # Lemmas -/

theorem new_eq : CFG.new =
    { basicBlocks :=
        [allocated (0, 0) 0,
         { allocated (0, 0) 1 with
           bexit := { cond := { variable_ := LocalRef.noVariable },
                      thenb := some 1, elseb := some 1 } }],
      maxBasicBlockId := 2, maxVariableId := 0 } := by
  rfl

theorem allocatedFrom_length (calls : List (Int × Int)) :
    ∀ id, (allocatedFrom id calls).length = calls.length := by
  induction calls with
  | nil => intro id; rfl
  | cons c cs ih => intro id; simp [allocatedFrom, ih]

theorem allocatedFrom_getElem? (calls : List (Int × Int)) :
    ∀ (id j : Nat) (call : Int × Int), calls[j]? = some call →
      (allocatedFrom id calls)[j]? = some (allocated call (id + j)) := by
  induction calls with
  | nil => intro id j call h; simp at h
  | cons c cs ih =>
    intro id j call h
    cases j with
    | zero => simp at h; simp [allocatedFrom, h]
    | succ j =>
      simp at h
      have := ih (id + 1) j call h
      have e : id + 1 + j = id + (j + 1) := by omega
      rw [e] at this
      simpa [allocatedFrom] using this

theorem allocatedFrom_append (xs ys : List (Int × Int)) :
    ∀ id, allocatedFrom id (xs ++ ys) =
      allocatedFrom id xs ++ allocatedFrom (id + xs.length) ys := by
  induction xs with
  | nil => intro id; simp [allocatedFrom]
  | cons c cs ih =>
    intro id
    have e : id + 1 + cs.length = id + (cs.length + 1) := by omega
    simp [allocatedFrom, ih, e]

theorem allocatedFrom_id_ge (calls : List (Int × Int)) :
    ∀ id, ∀ b ∈ allocatedFrom id calls, id ≤ b.id ∧ b.id < id + calls.length := by
  induction calls with
  | nil => intro id b hb; simp [allocatedFrom] at hb
  | cons c cs ih =>
    intro id b hb
    simp [allocatedFrom] at hb
    rcases hb with hb | hb
    · subst hb; simp [allocated]
    · have := ih (id + 1) b hb
      simp; omega

theorem freshBlocks_eq (calls : List (Int × Int)) :
    ∀ cfg : CFG, cfg.freshBlocks calls =
      ({ cfg with basicBlocks := cfg.basicBlocks ++ allocatedFrom cfg.maxBasicBlockId calls,
                  maxBasicBlockId := cfg.maxBasicBlockId + calls.length },
       List.range' cfg.basicBlocks.length calls.length) := by
  induction calls with
  | nil => intro cfg; simp [CFG.freshBlocks, allocatedFrom]
  | cons c cs ih =>
    intro cfg
    simp only [CFG.freshBlocks, ih, CFG.freshBlock, allocatedFrom, List.length_cons,
      List.range'_succ, List.length_append, List.length_singleton, List.append_assoc,
      List.singleton_append]
    refine Prod.ext ?_ ?_
    · simp only [allocated]
      congr 1
      omega
    · rfl

theorem denseIndex_new : CFG.new.DenseIndex := by
  rw [new_eq]
  refine ⟨?_, ?_, ?_⟩
  · intro i b h
    match i, h with
    | 0, h => simp at h; subst h; rfl
    | 1, h => simp at h; subst h; rfl
    | i + 2, h => simp at h
  · simp [allocated]
  · rfl

theorem denseIndex_id_lt {cfg : CFG} (h : cfg.DenseIndex) :
    ∀ b ∈ cfg.basicBlocks, b.id < cfg.basicBlocks.length := by
  intro b hb
  obtain ⟨i, hi, hib⟩ := List.getElem_of_mem hb
  have := h.1 i b (by rw [List.getElem?_eq_getElem hi, hib])
  omega

theorem denseIndex_freshBlock {cfg : CFG} (h : cfg.DenseIndex) (outerLoops rubyBlockId : Int) :
    (cfg.freshBlock outerLoops rubyBlockId).1.DenseIndex := by
  obtain ⟨h1, h2, h3⟩ := h
  refine ⟨?_, ?_, ?_⟩
  · intro i b hib
    simp only [CFG.freshBlock] at hib
    rcases Nat.lt_or_ge i cfg.basicBlocks.length with hlt | hge
    · rw [List.getElem?_append_left hlt] at hib
      exact h1 i b hib
    · rw [List.getElem?_append_right hge] at hib
      cases hk : i - cfg.basicBlocks.length with
      | zero =>
        rw [hk] at hib
        simp at hib
        subst hib
        simp only []
        omega
      | succ k => rw [hk] at hib; simp at hib
  · simp only [CFG.freshBlock, List.map_append, List.map_cons, List.map_nil]
    rw [List.nodup_append]
    refine ⟨h2, by simp, ?_⟩
    intro a ha hb
    simp at hb
    simp at ha
    obtain ⟨b, hb1, hb2⟩ := ha
    have := denseIndex_id_lt ⟨h1, h2, h3⟩ b hb1
    omega
  · simp [CFG.freshBlock, h3]

theorem reachable_denseIndex {cfg : CFG} (h : Reachable cfg) : cfg.DenseIndex := by
  induction h with
  | new => exact denseIndex_new
  | freshBlock o r _ ih => exact denseIndex_freshBlock ih o r

theorem reachable_freshBlocks {cfg : CFG} (h : Reachable cfg) (calls : List (Int × Int)) :
    Reachable (cfg.freshBlocks calls).1 := by
  induction calls generalizing cfg with
  | nil => exact h
  | cons c cs ih => exact ih (Reachable.freshBlock c.1 c.2 h)

theorem setAt_of_lt {α : Type} (xs : List α) (i : Nat) (x : α) (h : i < xs.length) :
    setAt xs i x = some (xs.set i x) := by
  simp [setAt, h]

theorem bit_set (row : Row) (i u : Nat) (x : Bool) (h : i < row.length) :
    bit (row.set i x) u = if u = i then x else bit row u := by
  unfold bit
  by_cases hu : u = i
  · subst hu
    simp [List.getD_eq_getElem?_getD, List.getElem?_set, h]
  · have : i ≠ u := fun e => hu e.symm
    simp [List.getD_eq_getElem?_getD, List.getElem?_set, hu, this]

theorem bit_set_true (row : Row) (i u : Nat) (h : i < row.length) :
    bit (row.set i true) u = (bit row u || decide (u = i)) := by
  rw [bit_set row i u true h]
  by_cases hu : u = i <;> simp [hu]

theorem bit_eq_false_of_le (row : Row) (u : Nat) (h : row.length ≤ u) : bit row u = false := by
  unfold bit
  simp [List.getD_eq_getElem?_getD, List.getElem?_eq_none h]

theorem bit_lt_of_true (row : Row) (u : Nat) (h : bit row u = true) : u < row.length := by
  rcases Nat.lt_or_ge u row.length with hlt | hge
  · exact hlt
  · rw [bit_eq_false_of_le row u hge] at h; cases h

theorem bit_replicate_false (n u : Nat) : bit (List.replicate n false) u = false := by
  unfold bit
  rw [List.getD_eq_getElem?_getD]
  rcases Nat.lt_or_ge u n with h | h
  · simp [List.getElem?_replicate, h]
  · simp [List.getElem?_replicate, Nat.not_lt.mpr h]

theorem getElem?_eq_some_bit (row : Row) (u : Nat) (h : u < row.length) :
    row[u]? = some (bit row u) := by
  unfold bit
  simp [List.getD_eq_getElem?_getD, List.getElem?_eq_getElem h]

theorem BlockRows.ReadsAdded.refl (st : BlockRows) : st.ReadsAdded st [] := by
  refine ⟨rfl, rfl, ?_, ?_⟩ <;> intro u <;> simp

theorem BlockRows.ReadsAdded.trans {st st1 st2 : BlockRows} {xs ys : List Nat}
    (h1 : st.ReadsAdded st1 xs) (h2 : st1.ReadsAdded st2 ys) :
    st.ReadsAdded st2 (xs ++ ys) := by
  obtain ⟨a1, a2, a3, a4⟩ := h1
  obtain ⟨b1, b2, b3, b4⟩ := h2
  refine ⟨b1.trans a1, b2.trans a2, ?_, ?_⟩
  · intro u; rw [b3, a3]; simp [Bool.or_assoc]
  · intro u; rw [b4, a4]; simp [Bool.or_assoc]

theorem markRead_spec {n : Nat} {st : BlockRows} (hs : st.Sized n) {v : Nat} (hv : v < n) :
    ∃ st1, markRead st v = some st1 ∧ st1.Sized n ∧ st.ReadsAdded st1 [v] := by
  obtain ⟨h1, h2, h3, h4⟩ := hs
  refine ⟨{ st with reads := st.reads.set v true,
                    readsAndWrites := st.readsAndWrites.set v true }, ?_, ?_, ?_⟩
  · simp [markRead, setAt, h1, h4, hv]
  · exact ⟨by simp [h1], h2, h3, by simp [h4]⟩
  · refine ⟨rfl, rfl, ?_, ?_⟩
    · intro u; simp [bit_set_true _ _ _ (h1.symm ▸ hv)]
    · intro u; simp [bit_set_true _ _ _ (h4.symm ▸ hv)]

theorem markArgs_spec {n : Nat} (args : List VariableUseSite) :
    ∀ {st : BlockRows}, st.Sized n → (∀ a ∈ args, a.variable_.id < n) →
      ∃ st1, markArgs st args = some st1 ∧ st1.Sized n ∧
        st.ReadsAdded st1 (args.map (fun a => a.variable_.id)) := by
  induction args with
  | nil => intro st hs _; exact ⟨st, rfl, hs, BlockRows.ReadsAdded.refl st⟩
  | cons a rest ih =>
    intro st hs hlt
    obtain ⟨st1, e1, s1, r1⟩ := markRead_spec hs (hlt a (List.mem_cons_self _ _))
    obtain ⟨st2, e2, s2, r2⟩ := ih s1 (fun b hb => hlt b (List.mem_cons_of_mem _ hb))
    refine ⟨st2, ?_, s2, ?_⟩
    · simp [markArgs, e1, e2]
    · simpa using r1.trans r2

theorem markInstruction_spec {n : Nat} {st : BlockRows} (hs : st.Sized n) (ins : Instruction)
    (hlt : ∀ v ∈ ins.readIds, v < n) :
    ∃ st1, markInstruction st ins = some st1 ∧ st1.Sized n ∧ st.ReadsAdded st1 ins.readIds := by
  cases ins with
  | Send recv args =>
    obtain ⟨st1, e1, s1, r1⟩ := markRead_spec hs (hlt recv.variable_.id (by simp [Instruction.readIds]))
    obtain ⟨st2, e2, s2, r2⟩ := markArgs_spec args s1
      (fun a ha => hlt a.variable_.id (by
        simp only [Instruction.readIds, List.mem_cons, List.mem_map]
        exact Or.inr ⟨a, ha, rfl⟩))
    refine ⟨st2, ?_, s2, ?_⟩
    · simp [markInstruction, e1, e2]
    · simpa [Instruction.readIds] using r1.trans r2
  | Alias => exact ⟨st, rfl, hs, BlockRows.ReadsAdded.refl st⟩
  | Other => exact ⟨st, rfl, hs, BlockRows.ReadsAdded.refl st⟩
  | Ident what => exact markRead_spec hs (hlt _ (by simp [Instruction.readIds]))
  | TAbsurd what => exact markRead_spec hs (hlt _ (by simp [Instruction.readIds]))
  | Return what => exact markRead_spec hs (hlt _ (by simp [Instruction.readIds]))
  | BlockReturn what => exact markRead_spec hs (hlt _ (by simp [Instruction.readIds]))
  | Cast value => exact markRead_spec hs (hlt _ (by simp [Instruction.readIds]))
  | LoadSelf fallback => exact markRead_spec hs (hlt _ (by simp [Instruction.readIds]))
  | SolveConstraint send => exact markRead_spec hs (hlt _ (by simp [Instruction.readIds]))

theorem bindingStep_spec {n : Nat} (iag : LocalRef → Bool) {st : BlockRows} (hs : st.Sized n)
    (bind : Binding) (hd : bind.dest < n) (hlt : ∀ v ∈ bind.value.readIds, v < n) :
    ∃ st1, bindingStep iag st bind = some st1 ∧ st1.Sized n ∧
      (∀ u, bit st1.writes u = (bit st.writes u || decide (u = bind.dest))) ∧
      (∀ u, bit st1.readsAndWrites u =
        (bit st.readsAndWrites u || decide (u = bind.dest) ||
          decide (u ∈ bind.value.readIds))) ∧
      (∀ u, bit st1.reads u =
        (bit st.reads u || (decide (u = bind.dest) && bind.aliasRule iag) ||
          decide (u ∈ bind.value.readIds))) ∧
      (∀ u, bit st1.dead u =
        (bit st.dead u || (decide (u = bind.dest) && !bit st1.reads bind.dest))) := by
  obtain ⟨h1, h2, h3, h4⟩ := hs
  unfold Binding.dest at hd ⊢
  have hd1 : bind.bind.variable_.id < st.reads.length := h1.symm ▸ hd
  have hd2 : bind.bind.variable_.id < st.writes.length := h2.symm ▸ hd
  have hd4 : bind.bind.variable_.id < st.readsAndWrites.length := h4.symm ▸ hd
  -- the rows after the destination has been recorded
  let r : Row := if bind.aliasRule iag then st.reads.set bind.bind.variable_.id true else st.reads
  have hr : (if (iag bind.bind.variable_ && !bind.value.isAlias) = true then
      setAt st.reads bind.bind.variable_.id true else some st.reads) = some r := by
    by_cases ha : bind.aliasRule iag = true
    · have ha1 := ha
      simp only [Binding.aliasRule] at ha1
      simp only [r, ha, ha1, if_true]
      exact setAt_of_lt _ _ _ hd1
    · have ha1 := ha
      simp only [Binding.aliasRule] at ha1
      simp [r, ha, ha1]
  have hrlen : r.length = n := by
    by_cases ha : bind.aliasRule iag = true <;> simp [r, ha, h1]
  have hrbit : ∀ u, bit r u = (bit st.reads u || (decide (u = bind.bind.variable_.id) && bind.aliasRule iag)) := by
    intro u
    by_cases ha : bind.aliasRule iag = true
    · simp only [r, ha, if_true]
      rw [bit_set_true _ _ _ hd1]
      simp
    · simp [r, ha]
  let stA : BlockRows :=
    { st with reads := r, writes := st.writes.set bind.bind.variable_.id true,
              readsAndWrites := st.readsAndWrites.set bind.bind.variable_.id true }
  have hsA : stA.Sized n := ⟨hrlen, by simp [stA, h2], h3, by simp [stA, h4]⟩
  obtain ⟨st2, e2, s2, a1, a2, a3, a4⟩ := markInstruction_spec hsA bind.value hlt
  have hfnd : st2.reads[bind.bind.variable_.id]? = some (bit st2.reads bind.bind.variable_.id) :=
    getElem?_eq_some_bit _ _ (s2.1.symm ▸ hd)
  have hstep : bindingStep iag st bind =
      (if (!bit st2.reads bind.bind.variable_.id) = true then
        (setAt st2.dead bind.bind.variable_.id true).bind
          (fun d => some { st2 with dead := d })
      else some st2) := by
    have e2a : markInstruction
        { reads := r, writes := st.writes.set bind.bind.variable_.id true,
          dead := st.dead,
          readsAndWrites := st.readsAndWrites.set bind.bind.variable_.id true }
        bind.value = some st2 := e2
    simp only [bindingStep, setAt_of_lt _ _ _ hd2, setAt_of_lt _ _ _ hd4,
      Option.bind_eq_bind, Option.some_bind, bind_pure_comp, Option.pure_def]
    by_cases ha : (iag bind.bind.variable_ && !bind.value.isAlias) = true
    · have hra : r = st.reads.set bind.bind.variable_.id true := by
        simp [r, Binding.aliasRule, ha]
      rw [hra] at e2a
      simp only [ha, if_true, setAt_of_lt _ _ _ hd1, Option.some_bind, e2a, hfnd]
    · have hra : r = st.reads := by
        simp [r, Binding.aliasRule, ha]
      rw [hra] at e2a
      simp only [ha, Bool.false_eq_true, if_false, Option.some_bind, e2a, hfnd]
  have w2 : ∀ u, bit st2.writes u = (bit st.writes u || decide (u = bind.bind.variable_.id)) := by
    intro u; rw [a1]; exact bit_set_true _ _ _ hd2
  have rw2 : ∀ u, bit st2.readsAndWrites u =
      (bit st.readsAndWrites u || decide (u = bind.bind.variable_.id) ||
        decide (u ∈ bind.value.readIds)) := by
    intro u; rw [a4]
    show (bit (st.readsAndWrites.set bind.bind.variable_.id true) u || _) = _
    rw [bit_set_true _ _ _ hd4]
  have r2 : ∀ u, bit st2.reads u =
      (bit st.reads u || (decide (u = bind.bind.variable_.id) && bind.aliasRule iag) ||
        decide (u ∈ bind.value.readIds)) := by
    intro u; rw [a3]
    show (bit r u || _) = _
    rw [hrbit]
  have d2 : st2.dead = st.dead := a2
  by_cases hb : bit st2.reads bind.bind.variable_.id = true
  · refine ⟨st2, ?_, s2, w2, rw2, r2, ?_⟩
    · rw [hstep]; simp [hb]
    · intro u; rw [d2]; simp [hb]
  · have hdd : bind.bind.variable_.id < st2.dead.length := s2.2.2.1.symm ▸ hd
    refine ⟨{ st2 with dead := st2.dead.set bind.bind.variable_.id true }, ?_,
      ⟨s2.1, s2.2.1, by simp [s2.2.2.1], s2.2.2.2⟩, w2, rw2, r2, ?_⟩
    · rw [hstep]; simp [hb, setAt_of_lt _ _ _ hdd]
    · intro u
      show bit (st2.dead.set bind.bind.variable_.id true) u = _
      rw [bit_set_true _ _ _ hdd, d2]
      simp [hb]

theorem deadIn_cons (iag : LocalRef → Bool) (b : Binding) (rest : List Binding) (v : Nat) :
    deadIn iag (b :: rest) v ↔ ¬ b.marksRead iag v ∧ (b.dest = v ∨ deadIn iag rest v) := by
  constructor
  · rintro ⟨i, bind, hi, hdst, hno⟩
    have h0 : ¬ b.marksRead iag v := hno 0 b (Nat.zero_le _) (by simp)
    refine ⟨h0, ?_⟩
    cases i with
    | zero =>
      simp at hi
      subst hi
      exact Or.inl hdst
    | succ i =>
      right
      refine ⟨i, bind, by simpa using hi, hdst, ?_⟩
      intro j bind1 hj hb1
      exact hno (j + 1) bind1 (by omega) (by simpa using hb1)
  · rintro ⟨h0, h | ⟨i, bind, hi, hdst, hno⟩⟩
    · refine ⟨0, b, by simp, h, ?_⟩
      intro j bind1 hj hb1
      have : j = 0 := by omega
      subst this
      simp at hb1
      subst hb1
      exact h0
    · refine ⟨i + 1, bind, by simpa using hi, hdst, ?_⟩
      intro j bind1 hj hb1
      cases j with
      | zero =>
        simp at hb1
        subst hb1
        exact h0
      | succ j => exact hno j bind1 (by omega) (by simpa using hb1)

theorem deadIn_nil (iag : LocalRef → Bool) (v : Nat) : ¬ deadIn iag [] v := by
  rintro ⟨i, bind, hi, _⟩
  simp at hi

theorem scanBindings_spec {n : Nat} (iag : LocalRef → Bool) (bs : List Binding) :
    ∀ {st : BlockRows}, st.Sized n →
      (∀ b ∈ bs, b.dest < n ∧ ∀ v ∈ b.value.readIds, v < n) →
      ∃ st1, scanBindings iag st bs = some st1 ∧ st1.Sized n ∧
        (∀ u, bit st1.writes u = true ↔ bit st.writes u = true ∨ ∃ b ∈ bs, b.dest = u) ∧
        (∀ u, bit st1.readsAndWrites u = true ↔
          bit st.readsAndWrites u = true ∨ ∃ b ∈ bs, b.dest = u ∨ u ∈ b.value.readIds) ∧
        (∀ u, bit st1.reads u = true ↔
          bit st.reads u = true ∨ ∃ b ∈ bs, b.marksRead iag u) ∧
        (∀ u, bit st1.dead u = true ↔
          bit st.dead u = true ∨ (bit st.reads u = false ∧ deadIn iag bs u)) := by
  induction bs with
  | nil =>
    intro st hs _
    refine ⟨st, rfl, hs, ?_, ?_, ?_, ?_⟩
    · intro u; simp
    · intro u; simp
    · intro u; simp
    · intro u
      have := deadIn_nil iag u
      simp [this]
  | cons b rest ih =>
    intro st hs hlt
    obtain ⟨hb1, hb2⟩ := hlt b (List.mem_cons_self _ _)
    obtain ⟨st1, e1, s1, w1, rw1, r1, d1⟩ := bindingStep_spec iag hs b hb1 hb2
    obtain ⟨st2, e2, s2, w2, rw2, r2, d2⟩ :=
      ih s1 (fun c hc => hlt c (List.mem_cons_of_mem _ hc))
    have hr1 : ∀ u, bit st1.reads u = true ↔ bit st.reads u = true ∨ b.marksRead iag u := by
      intro u
      rw [r1 u]
      simp only [Binding.marksRead, Bool.or_eq_true, Bool.and_eq_true, decide_eq_true_eq]
      constructor
      · rintro ((h | ⟨h, ha⟩) | h)
        · exact Or.inl h
        · exact Or.inr (Or.inr ⟨h.symm, ha⟩)
        · exact Or.inr (Or.inl h)
      · rintro (h | h | ⟨h, ha⟩)
        · exact Or.inl (Or.inl h)
        · exact Or.inr h
        · exact Or.inl (Or.inr ⟨h.symm, ha⟩)
    refine ⟨st2, ?_, s2, ?_, ?_, ?_, ?_⟩
    · simp [scanBindings, e1, e2]
    · intro u
      rw [w2 u, w1 u]
      simp only [Bool.or_eq_true, decide_eq_true_eq, List.mem_cons, exists_eq_or_imp]
      constructor
      · rintro ((h | h) | h)
        · exact Or.inl h
        · exact Or.inr (Or.inl h.symm)
        · exact Or.inr (Or.inr h)
      · rintro (h | h | h)
        · exact Or.inl (Or.inl h)
        · exact Or.inl (Or.inr h.symm)
        · exact Or.inr h
    · intro u
      rw [rw2 u, rw1 u]
      simp only [Bool.or_eq_true, decide_eq_true_eq, List.mem_cons, exists_eq_or_imp]
      constructor
      · rintro (((h | h) | h) | h)
        · exact Or.inl h
        · exact Or.inr (Or.inl (Or.inl h.symm))
        · exact Or.inr (Or.inl (Or.inr h))
        · exact Or.inr (Or.inr h)
      · rintro (h | (h | h) | h)
        · exact Or.inl (Or.inl (Or.inl h))
        · exact Or.inl (Or.inl (Or.inr h.symm))
        · exact Or.inl (Or.inr h)
        · exact Or.inr h
    · intro u
      rw [r2 u, hr1 u]
      simp only [List.mem_cons, exists_eq_or_imp]
      exact or_assoc
    · intro u
      rw [d2 u, deadIn_cons]
      have hd1 : bit st1.dead u = true ↔
          bit st.dead u = true ∨ (b.dest = u ∧ bit st1.reads u = false) := by
        rw [d1 u]
        simp only [Bool.or_eq_true, Bool.and_eq_true, decide_eq_true_eq,
          Bool.not_eq_true']
        constructor
        · rintro (h | ⟨h, hr⟩)
          · exact Or.inl h
          · subst h; exact Or.inr ⟨rfl, hr⟩
        · rintro (h | ⟨h, hr⟩)
          · exact Or.inl h
          · subst h; exact Or.inr ⟨rfl, hr⟩
      have hf1 : bit st1.reads u = false ↔ bit st.reads u = false ∧ ¬ b.marksRead iag u := by
        rw [← Bool.not_eq_true, hr1 u, not_or, Bool.not_eq_true]
      rw [hd1, hf1]
      tauto

theorem zero_sized (n : Nat) : (BlockRows.zero n).Sized n := by
  simp [BlockRows.zero, BlockRows.Sized]

theorem resize_nil_false (n : Nat) : resize false [] n = List.replicate n false := by
  simp [resize]

theorem resize_nil_nil (n : Nat) : resize ([] : Row) [] n = List.replicate n [] := by
  simp [resize]

theorem scanBlock_zero_spec {n : Nat} (iag : LocalRef → Bool) (bb : BasicBlock)
    (hv : bb.varsBelow n) :
    ∃ st, scanBlock iag (BlockRows.zero n) bb = some st ∧ st.Sized n ∧
      (∀ u, bit st.reads u = true ↔ bb.readsVar iag u) ∧
      (∀ u, bit st.writes u = true ↔ bb.writesVar u) ∧
      (∀ u, bit st.dead u = true ↔ deadIn iag bb.exprs u) ∧
      (∀ u, bit st.readsAndWrites u = true ↔ bb.touches u) := by
  obtain ⟨st1, e1, s1, w1, rw1, r1, d1⟩ := scanBindings_spec iag bb.exprs (zero_sized n) hv.1
  have z : ∀ u, bit (List.replicate n false) u = false := bit_replicate_false n
  have hw : ∀ u, bit st1.writes u = true ↔ bb.writesVar u := by
    intro u; rw [w1 u]; simp [BlockRows.zero, z, BasicBlock.writesVar]
  have hd : ∀ u, bit st1.dead u = true ↔ deadIn iag bb.exprs u := by
    intro u; rw [d1 u]; simp [BlockRows.zero, z]
  have hr : ∀ u, bit st1.reads u = true ↔ ∃ b ∈ bb.exprs, b.marksRead iag u := by
    intro u; rw [r1 u]; simp [BlockRows.zero, z]
  have hrw : ∀ u, bit st1.readsAndWrites u = true ↔
      ∃ b ∈ bb.exprs, b.dest = u ∨ u ∈ b.value.readIds := by
    intro u; rw [rw1 u]; simp [BlockRows.zero, z]
  have hmarks : ∀ u, (∃ b ∈ bb.exprs, b.marksRead iag u) ↔
      ((∃ bind ∈ bb.exprs, u ∈ bind.value.readIds) ∨
       (∃ bind ∈ bb.exprs, bind.dest = u ∧ bind.value.isAlias = false ∧
          iag bind.bind.variable_ = true)) := by
    intro u
    constructor
    · rintro ⟨b, hb, h | ⟨h, ha⟩⟩
      · exact Or.inl ⟨b, hb, h⟩
      · right
        simp only [Binding.aliasRule, Bool.and_eq_true, Bool.not_eq_true'] at ha
        exact ⟨b, hb, h, ha.2, ha.1⟩
    · rintro (⟨b, hb, h⟩ | ⟨b, hb, h, h1, h2⟩)
      · exact ⟨b, hb, Or.inl h⟩
      · exact ⟨b, hb, Or.inr ⟨h, by simp [Binding.aliasRule, h1, h2]⟩⟩
  by_cases hc : bb.bexit.cond.variable_.exists_ = true
  · obtain ⟨st2, e2, s2, a1, a2, a3, a4⟩ := markRead_spec s1 (hv.2 hc)
    refine ⟨st2, ?_, s2, ?_, ?_, ?_, ?_⟩
    · simp [scanBlock, e1, markExit, hc, e2]
    · intro u
      rw [a3 u, Bool.or_eq_true, hr u, hmarks u]
      simp only [BasicBlock.readsVar, BasicBlock.exitReads, hc, true_and, List.mem_singleton,
        decide_eq_true_eq]
      constructor
      · rintro ((h | h) | h)
        · exact Or.inl h
        · exact Or.inr (Or.inr h)
        · exact Or.inr (Or.inl h.symm)
      · rintro (h | h | h)
        · exact Or.inl (Or.inl h)
        · exact Or.inr h.symm
        · exact Or.inl (Or.inr h)
    · intro u; rw [a1]; exact hw u
    · intro u; rw [a2]; exact hd u
    · intro u
      rw [a4 u, Bool.or_eq_true, hrw u]
      simp only [BasicBlock.touches, BasicBlock.exitReads, hc, true_and, List.mem_singleton,
        decide_eq_true_eq]
      constructor
      · rintro (h | h)
        · exact Or.inl h
        · exact Or.inr h.symm
      · rintro (h | h)
        · exact Or.inl h
        · exact Or.inr h.symm
  · refine ⟨st1, ?_, s1, ?_, hw, hd, ?_⟩
    · simp [scanBlock, e1, markExit, hc]
    · intro u
      rw [hr u, hmarks u]
      simp only [BasicBlock.readsVar, BasicBlock.exitReads, hc, Bool.false_eq_true, false_and, false_or]
    · intro u
      rw [hrw u]
      simp only [BasicBlock.touches, BasicBlock.exitReads, hc, Bool.false_eq_true, false_and, or_false]

theorem rowsAt_eq_some {ps : PassState} {j : Nat} {st : BlockRows}
    (h : ps.rowsAt j = some st) :
    ps.reads[j]? = some st.reads ∧ ps.writes[j]? = some st.writes ∧
    ps.dead[j]? = some st.dead ∧ ps.readsAndWrites[j]? = some st.readsAndWrites := by
  unfold PassState.rowsAt at h
  split at h
  · rename_i r w d rw h1 h2 h3 h4
    cases h
    exact ⟨h1, h2, h3, h4⟩
  · cases h

theorem rowsAt_setRows_self {m : Nat} {ps : PassState} (hs : ps.Sized m) {j : Nat}
    (hj : j < m) (st : BlockRows) : (ps.setRows j st).rowsAt j = some st := by
  obtain ⟨h1, h2, h3, h4⟩ := hs
  simp [PassState.rowsAt, PassState.setRows, List.getElem?_set, h1, h2, h3, h4, hj]

theorem rowsAt_setRows_ne (ps : PassState) {j k : Nat} (hjk : k ≠ j) (st : BlockRows) :
    (ps.setRows k st).rowsAt j = ps.rowsAt j := by
  simp [PassState.rowsAt, PassState.setRows, List.getElem?_set, hjk]

theorem setRows_sized {m : Nat} {ps : PassState} (hs : ps.Sized m) (j : Nat) (st : BlockRows) :
    (ps.setRows j st).Sized m := by
  obtain ⟨h1, h2, h3, h4⟩ := hs
  simp [PassState.Sized, PassState.setRows, h1, h2, h3, h4]

theorem blockStep_of_empty {n : Nat} (iag : LocalRef → Bool) {ps : PassState} {bb : BasicBlock}
    (h0 : ps.rowsAt bb.id = some BlockRows.empty) :
    blockStep iag n ps bb =
      (scanBlock iag (BlockRows.zero n) bb).bind (fun st => some (ps.setRows bb.id st)) := by
  obtain ⟨h1, h2, h3, h4⟩ := rowsAt_eq_some h0
  simp only [BlockRows.empty] at h1 h2 h3 h4
  simp only [blockStep, h1, h2, h3, h4, Option.bind_eq_bind, Option.some_bind,
    resize_nil_false, Option.pure_def]
  rfl

theorem firstPass_spec {m n : Nat} (iag : LocalRef → Bool) (bs : List BasicBlock) :
    ∀ ps : PassState, ps.Sized m →
      (∀ b ∈ bs, b.id < m ∧ b.varsBelow n) →
      (bs.map (fun b => b.id)).Nodup →
      (∀ b ∈ bs, ps.rowsAt b.id = some BlockRows.empty) →
      ∃ ps1, firstPass iag n ps bs = some ps1 ∧ ps1.Sized m ∧
        (∀ j, (∀ b ∈ bs, b.id ≠ j) → ps1.rowsAt j = ps.rowsAt j) ∧
        (∀ b ∈ bs, ∃ st, scanBlock iag (BlockRows.zero n) b = some st ∧
          ps1.rowsAt b.id = some st) := by
  induction bs with
  | nil =>
    intro ps hs _ _ _
    exact ⟨ps, rfl, hs, fun _ _ => rfl, fun b hb => by simp at hb⟩
  | cons b rest ih =>
    intro ps hs hlt hnd h0
    obtain ⟨hbm, hbv⟩ := hlt b (List.mem_cons_self _ _)
    obtain ⟨st, e, -⟩ := scanBlock_zero_spec iag b hbv
    have hstep : blockStep iag n ps b = some (ps.setRows b.id st) := by
      rw [blockStep_of_empty iag (h0 b (List.mem_cons_self _ _)), e]; rfl
    simp only [List.map_cons, List.nodup_cons, List.mem_map, not_exists, not_and] at hnd
    obtain ⟨hnotin, hnd1⟩ := hnd
    have hne : ∀ c ∈ rest, b.id ≠ c.id := fun c hc e => hnotin c hc e.symm
    obtain ⟨ps1, e1, s1, keep1, rows1⟩ := ih (ps.setRows b.id st) (setRows_sized hs _ _)
      (fun c hc => hlt c (List.mem_cons_of_mem _ hc)) hnd1
      (fun c hc => by
        rw [rowsAt_setRows_ne ps (hne c hc)]
        exact h0 c (List.mem_cons_of_mem _ hc))
    refine ⟨ps1, ?_, s1, ?_, ?_⟩
    · simp [firstPass, hstep, e1]
    · intro j hj
      rw [keep1 j (fun c hc => hj c (List.mem_cons_of_mem _ hc))]
      exact rowsAt_setRows_ne ps (hj b (List.mem_cons_self _ _)) st
    · intro c hc
      rcases List.mem_cons.mp hc with hcb | hcr
      · subst hcb
        refine ⟨st, e, ?_⟩
        rw [keep1 c.id (fun d hd e => hnotin d hd e)]
        exact rowsAt_setRows_self hs hbm st
      · exact rows1 c hcr

theorem bit_cons_succ (el : Bool) (rest : Row) (i : Nat) :
    bit (el :: rest) (i + 1) = bit rest i := by
  simp [bit]

theorem bit_cons_zero (el : Bool) (rest : Row) : bit (el :: rest) 0 = el := by
  simp [bit]

theorem tallyRow_spec (blockId : Nat) (row : List Bool) :
    ∀ (loc : Nat) (uc : List (Nat × Nat)), loc + row.length ≤ uc.length →
      ∃ uc1, tallyRow blockId row loc uc = some uc1 ∧ uc1.length = uc.length ∧
        ∀ v, uc1[v]? =
          if loc ≤ v ∧ bit row (v - loc) = true then uc[v]?.map (bump blockId) else uc[v]? := by
  induction row with
  | nil =>
    intro loc uc _
    refine ⟨uc, rfl, rfl, ?_⟩
    intro v
    simp [bit]
  | cons el rest ih =>
    intro loc uc hlen
    simp only [List.length_cons] at hlen
    have hloc : loc < uc.length := by omega
    cases el with
    | false =>
      obtain ⟨uc1, e1, l1, p1⟩ := ih (loc + 1) uc (by omega)
      refine ⟨uc1, ?_, l1, ?_⟩
      · simp [tallyRow, e1]
      · intro v
        rw [p1 v]
        by_cases hv : loc + 1 ≤ v
        · have e : v - loc = (v - (loc + 1)) + 1 := by omega
          have hle : loc ≤ v := by omega
          rw [e, bit_cons_succ]
          simp [hv, hle]
        · by_cases hv0 : v = loc
          · subst hv0
            simp [bit_cons_zero]
          · have hle : ¬ loc ≤ v := by omega
            simp [hv, hle]
    | true =>
      obtain ⟨uc1, e1, l1, p1⟩ := ih (loc + 1)
        (uc.set loc (bump blockId uc[loc])) (by simp; omega)
      refine ⟨uc1, ?_, by simpa using l1, ?_⟩
      · simp only [tallyRow, if_true, List.getElem?_eq_getElem hloc, Option.bind_eq_bind,
          Option.some_bind, setAt_of_lt _ _ _ hloc]
        exact e1
      · intro v
        rw [p1 v]
        by_cases hv : loc + 1 ≤ v
        · have e : v - loc = (v - (loc + 1)) + 1 := by omega
          have hle : loc ≤ v := by omega
          have hne : loc ≠ v := by omega
          rw [e, bit_cons_succ]
          simp [hv, hle, List.getElem?_set, hne]
        · by_cases hv0 : v = loc
          · subst hv0
            simp [bit_cons_zero, List.getElem?_set, hloc]
          · have hle : ¬ loc ≤ v := by omega
            have hne : loc ≠ v := fun e => hv0 e.symm
            simp [hv, hle, List.getElem?_set, hne]

theorem tallyBlocks_spec (t : Table) :
    ∀ (k j : Nat) (uc : List (Nat × Nat)), j + k ≤ t.length →
      (∀ row ∈ t, row.length ≤ uc.length) →
      ∃ uc1, tallyBlocks t k j uc = some uc1 ∧ uc1.length = uc.length ∧
        ∀ v, uc1[v]? = uc[v]?.map (tallyVar t v k j) := by
  intro k
  induction k with
  | zero =>
    intro j uc _ _
    refine ⟨uc, rfl, rfl, ?_⟩
    intro v
    cases uc[v]? <;> simp [tallyVar]
  | succ k ih =>
    intro j uc hj hrows
    have hjlt : j < t.length := by omega
    have hrow : t[j].length ≤ uc.length := hrows _ (List.getElem_mem _)
    obtain ⟨uc1, e1, l1, p1⟩ := tallyRow_spec j t[j] 0 uc (by omega)
    obtain ⟨uc2, e2, l2, p2⟩ := ih (j + 1) uc1 (by omega) (by rw [l1]; exact hrows)
    refine ⟨uc2, ?_, l2.trans l1, ?_⟩
    · simp only [tallyBlocks, List.getElem?_eq_getElem hjlt, Option.bind_eq_bind,
        Option.some_bind, e1]
      exact e2
    · intro v
      rw [p2 v, p1 v]
      have hb : tbit t j v = bit t[j] v := by
        simp [tbit, List.getD_eq_getElem?_getD, List.getElem?_eq_getElem hjlt]
      by_cases hbit : bit t[j] v = true
      · cases huc : uc[v]? <;> simp [tallyVar, hb, hbit]
      · cases huc : uc[v]? <;> simp [tallyVar, hb, hbit]

theorem tallyVar_inv (t : Table) (v : Nat) :
    ∀ (k j : Nat) (u : Nat × Nat), TallyInv t v j u →
      TallyInv t v (j + k) (tallyVar t v k j u) := by
  intro k
  induction k with
  | zero => intro j u h; simpa [tallyVar] using h
  | succ k ih =>
    intro j u h
    have e : j + (k + 1) = (j + 1) + k := by omega
    rw [e]
    simp only [tallyVar]
    apply ih
    obtain ⟨h0, h1, h2⟩ := h
    by_cases hb : tbit t j v = true
    · simp only [hb, if_true]
      by_cases hu0 : u.1 = 0
      · have hbump : bump j u = (1, j) := by simp [bump, hu0]
        rw [hbump]
        refine ⟨by simp, fun _ => ⟨by simp, hb, ?_⟩, by simp⟩
        intro i hi hbi
        rcases Nat.lt_or_ge i j with hlt | hge
        · rw [h0 hu0 i hlt] at hbi; cases hbi
        · simp only; omega
      · have hbump : bump j u = (u.1 + 1, u.2) := by simp [bump, hu0]
        rw [hbump]
        refine ⟨by simp, by simp; omega, fun _ => ?_⟩
        by_cases hu1 : u.1 = 1
        · obtain ⟨a, b, _⟩ := h1 hu1
          exact ⟨u.2, j, by omega, by omega, by omega, b, hb⟩
        · obtain ⟨i1, i2, a1, a2, a3, a4, a5⟩ := h2 (by omega)
          exact ⟨i1, i2, by omega, by omega, a3, a4, a5⟩
    · have hbf : tbit t j v = false := by simpa using hb
      simp only [hbf, Bool.false_eq_true, if_false]
      refine ⟨fun hu i hi => ?_, fun hu => ?_, fun hu => ?_⟩
      · rcases Nat.lt_or_ge i j with hlt | hge
        · exact h0 hu i hlt
        · have : i = j := by omega
          subst this; exact hbf
      · obtain ⟨a, b, c⟩ := h1 hu
        refine ⟨by omega, b, fun i hi hbi => ?_⟩
        rcases Nat.lt_or_ge i j with hlt | hge
        · exact c i hlt hbi
        · have : i = j := by omega
          subst this; rw [hbf] at hbi; cases hbi
      · obtain ⟨i1, i2, a1, a2, a3, a4, a5⟩ := h2 hu
        exact ⟨i1, i2, by omega, by omega, a3, a4, a5⟩

theorem tallyInv_init (t : Table) (v : Nat) : TallyInv t v 0 (0, 0) := by
  refine ⟨fun _ i hi => by omega, fun h => by simp at h, fun h => by simp at h⟩

theorem getD_set_row (t : Table) (b j : Nat) (row : Row) (hb : b < t.length) :
    (t.set b row).getD j [] = if j = b then row else t.getD j [] := by
  by_cases hj : j = b
  · subst hj
    simp [List.getD_eq_getElem?_getD, List.getElem?_set, hb]
  · have : b ≠ j := fun e => hj e.symm
    simp [List.getD_eq_getElem?_getD, List.getElem?_set, hj, this]

theorem lt_length_of_row_pos (t : Table) (b v : Nat) (h : v < (t.getD b []).length) :
    b < t.length := by
  rcases Nat.lt_or_ge b t.length with hlt | hge
  · exact hlt
  · rw [List.getD_eq_getElem?_getD, List.getElem?_eq_none hge] at h
    simp at h

theorem clearWrite_spec (t : Table) (b v : Nat) (hv : v < (t.getD b []).length) :
    ∃ t1, clearWrite t b v = some t1 ∧ t1.length = t.length ∧
      (∀ j, (t1.getD j []).length = (t.getD j []).length) ∧
      ∀ j u, tbit t1 j u = (tbit t j u && !(decide (j = b) && decide (u = v))) := by
  have hb : b < t.length := lt_length_of_row_pos t b v hv
  have hrow : t.getD b [] = t[b] := by
    simp [List.getD_eq_getElem?_getD, List.getElem?_eq_getElem hb]
  rw [hrow] at hv
  refine ⟨t.set b (t[b].set v false), ?_, by simp, ?_, ?_⟩
  · simp [clearWrite, List.getElem?_eq_getElem hb, setAt_of_lt _ _ _ hv, setAt_of_lt _ _ _ hb]
  · intro j
    rw [getD_set_row t b j _ hb]
    by_cases hj : j = b
    · subst hj; rw [hrow]; simp
    · simp [hj]
  · intro j u
    unfold tbit
    rw [getD_set_row t b j _ hb]
    by_cases hj : j = b
    · subst hj
      simp only [if_true, hrow, decide_True, Bool.true_and]
      rw [bit_set _ _ _ _ hv]
      by_cases hu : u = v <;> simp [hu]
    · simp [hj]

theorem suppress_spec (uc : List (Nat × Nat)) :
    ∀ (loc : Nat) (t : Table),
      (∀ (i : Nat) (u : Nat × Nat), uc[i]? = some u → u.1 = 1 →
        loc + i < (t.getD u.2 []).length) →
      ∃ t1, suppress uc loc t = some t1 ∧ t1.length = t.length ∧
        (∀ j, (t1.getD j []).length = (t.getD j []).length) ∧
        ∀ j v, tbit t1 j v = true ↔
          tbit t j v = true ∧
            ¬ ∃ (i : Nat) (u : Nat × Nat), uc[i]? = some u ∧ u.1 = 1 ∧ u.2 = j ∧ loc + i = v := by
  induction uc with
  | nil =>
    intro loc t _
    exact ⟨t, rfl, rfl, fun _ => rfl, fun j v => by simp⟩
  | cons usages rest ih =>
    intro loc t hrange
    have hrest : ∀ (t1 : Table), (∀ j, (t1.getD j []).length = (t.getD j []).length) →
        ∀ (i : Nat) (u : Nat × Nat), rest[i]? = some u → u.1 = 1 →
        loc + 1 + i < (t1.getD u.2 []).length := by
      intro t1 hl i u hi hu
      rw [hl]
      have := hrange (i + 1) u (by simpa using hi) hu
      omega
    by_cases h1 : usages.1 = 1
    · obtain ⟨t1, e1, l1, r1, b1⟩ := clearWrite_spec t usages.2 loc
        (by simpa using hrange 0 usages (by simp) h1)
      obtain ⟨t2, e2, l2, r2, b2⟩ := ih (loc + 1) t1 (hrest t1 r1)
      refine ⟨t2, ?_, l2.trans l1, fun j => (r2 j).trans (r1 j), ?_⟩
      · simp [suppress, h1, e1, e2]
      · intro j v
        rw [b2 j v, b1 j v]
        simp only [Bool.and_eq_true, Bool.not_eq_true', Bool.and_eq_false_imp,
          decide_eq_true_eq, decide_eq_false_iff_not]
        constructor
        · rintro ⟨⟨hb, hne⟩, hno⟩
          refine ⟨hb, ?_⟩
          rintro ⟨i, u, hi, hu1, hu2, hiv⟩
          cases i with
          | zero =>
            simp at hi
            subst hi
            exact hne hu2.symm (by omega)
          | succ i =>
            exact hno ⟨i, u, by simpa using hi, hu1, hu2, by omega⟩
        · rintro ⟨hb, hno⟩
          refine ⟨⟨hb, ?_⟩, ?_⟩
          · intro hj hv
            exact hno ⟨0, usages, by simp, h1, hj.symm, by omega⟩
          · rintro ⟨i, u, hi, hu1, hu2, hiv⟩
            exact hno ⟨i + 1, u, by simpa using hi, hu1, hu2, by omega⟩
    · obtain ⟨t2, e2, l2, r2, b2⟩ := ih (loc + 1) t (hrest t (fun _ => rfl))
      refine ⟨t2, ?_, l2, r2, ?_⟩
      · simp [suppress, h1, e2]
      · intro j v
        rw [b2 j v]
        constructor
        · rintro ⟨hb, hno⟩
          refine ⟨hb, ?_⟩
          rintro ⟨i, u, hi, hu1, hu2, hiv⟩
          cases i with
          | zero =>
            simp at hi
            subst hi
            exact h1 hu1
          | succ i =>
            exact hno ⟨i, u, by simpa using hi, hu1, hu2, by omega⟩
        · rintro ⟨hb, hno⟩
          refine ⟨hb, ?_⟩
          rintro ⟨i, u, hi, hu1, hu2, hiv⟩
          exact hno ⟨i + 1, u, by simpa using hi, hu1, hu2, by omega⟩

theorem init_sized (m : Nat) : (PassState.init m).Sized m := by
  simp [PassState.init, PassState.Sized, resize]

theorem init_rowsAt (m j : Nat) (hj : j < m) :
    (PassState.init m).rowsAt j = some BlockRows.empty := by
  simp [PassState.init, PassState.rowsAt, resize, List.getElem?_replicate, hj, BlockRows.empty]

theorem getD_of_getElem? {t : Table} {j : Nat} {row : Row} (h : t[j]? = some row) :
    t.getD j [] = row := by
  simp [List.getD_eq_getElem?_getD, h]

theorem firstPass_init_spec (cfg : CFG) (iag : LocalRef → Bool) (h : cfg.IdsInRange) :
    ∃ ps, firstPass iag cfg.maxVariableId (PassState.init cfg.maxBasicBlockId)
        cfg.basicBlocks = some ps ∧
      ps.Sized cfg.maxBasicBlockId ∧
      (∀ b ∈ cfg.basicBlocks, ∃ st, scanBlock iag (BlockRows.zero cfg.maxVariableId) b = some st ∧
        ps.rowsAt b.id = some st) ∧
      (∀ j, (∀ b ∈ cfg.basicBlocks, b.id ≠ j) → j < cfg.maxBasicBlockId →
        ps.rowsAt j = some BlockRows.empty) := by
  obtain ⟨ps, e, s, keep, rows⟩ := firstPass_spec iag cfg.basicBlocks
    (PassState.init cfg.maxBasicBlockId) (init_sized _)
    (fun b hb => ⟨h.ids_lt b hb, h.vars_lt b hb⟩) h.ids_nodup
    (fun b hb => init_rowsAt _ _ (h.ids_lt b hb))
  refine ⟨ps, e, s, rows, ?_⟩
  intro j hj hjm
  rw [keep j hj]
  exact init_rowsAt _ _ hjm

/-- The facts about the tables of the first pass that the second pass relies on. -/
theorem firstPass_rows (cfg : CFG) (iag : LocalRef → Bool) (h : cfg.IdsInRange)
    {ps : PassState}
    (hrows : ∀ b ∈ cfg.basicBlocks, ∃ st,
      scanBlock iag (BlockRows.zero cfg.maxVariableId) b = some st ∧ ps.rowsAt b.id = some st)
    (hkeep : ∀ j, (∀ b ∈ cfg.basicBlocks, b.id ≠ j) → j < cfg.maxBasicBlockId →
      ps.rowsAt j = some BlockRows.empty)
    (hs : ps.Sized cfg.maxBasicBlockId) :
    (∀ b ∈ cfg.basicBlocks,
      (ps.reads.getD b.id []).length = cfg.maxVariableId ∧
      (ps.writes.getD b.id []).length = cfg.maxVariableId ∧
      (ps.dead.getD b.id []).length = cfg.maxVariableId ∧
      (ps.readsAndWrites.getD b.id []).length = cfg.maxVariableId ∧
      (∀ v, tbit ps.reads b.id v = true ↔ b.readsVar iag v) ∧
      (∀ v, tbit ps.writes b.id v = true ↔ b.writesVar v) ∧
      (∀ v, tbit ps.dead b.id v = true ↔ deadIn iag b.exprs v) ∧
      (∀ v, tbit ps.readsAndWrites b.id v = true ↔ b.touches v)) ∧
    (∀ j v, tbit ps.readsAndWrites j v = true → ∃ b ∈ cfg.basicBlocks, b.id = j) ∧
    (∀ row ∈ ps.readsAndWrites, row.length ≤ cfg.maxVariableId) := by
  have hblock : ∀ b ∈ cfg.basicBlocks,
      (ps.reads.getD b.id []).length = cfg.maxVariableId ∧
      (ps.writes.getD b.id []).length = cfg.maxVariableId ∧
      (ps.dead.getD b.id []).length = cfg.maxVariableId ∧
      (ps.readsAndWrites.getD b.id []).length = cfg.maxVariableId ∧
      (∀ v, tbit ps.reads b.id v = true ↔ b.readsVar iag v) ∧
      (∀ v, tbit ps.writes b.id v = true ↔ b.writesVar v) ∧
      (∀ v, tbit ps.dead b.id v = true ↔ deadIn iag b.exprs v) ∧
      (∀ v, tbit ps.readsAndWrites b.id v = true ↔ b.touches v) := by
    intro b hb
    obtain ⟨st, e, hst⟩ := hrows b hb
    obtain ⟨st1, e1, s1, r1, w1, d1, rw1⟩ := scanBlock_zero_spec iag b (h.vars_lt b hb)
    rw [e] at e1
    cases e1
    obtain ⟨g1, g2, g3, g4⟩ := rowsAt_eq_some hst
    unfold tbit
    rw [getD_of_getElem? g1, getD_of_getElem? g2, getD_of_getElem? g3, getD_of_getElem? g4]
    exact ⟨s1.1, s1.2.1, s1.2.2.1, s1.2.2.2, r1, w1, d1, rw1⟩
  have hempty : ∀ j, (∀ b ∈ cfg.basicBlocks, b.id ≠ j) → ps.readsAndWrites.getD j [] = [] := by
    intro j hj
    rcases Nat.lt_or_ge j cfg.maxBasicBlockId with hlt | hge
    · exact getD_of_getElem? (rowsAt_eq_some (hkeep j hj hlt)).2.2.2
    · rw [List.getD_eq_getElem?_getD, List.getElem?_eq_none (by rw [hs.2.2.2]; exact hge)]
      rfl
  refine ⟨hblock, ?_, ?_⟩
  · intro j v hbit
    by_contra hno
    have hj : ∀ b ∈ cfg.basicBlocks, b.id ≠ j := fun b hb e => hno ⟨b, hb, e⟩
    unfold tbit at hbit
    rw [hempty j hj] at hbit
    simp [bit] at hbit
  · intro row hrow
    obtain ⟨j, hj, hjrow⟩ := List.getElem_of_mem hrow
    have hg : ps.readsAndWrites.getD j [] = row := by
      rw [List.getD_eq_getElem?_getD, List.getElem?_eq_getElem hj, hjrow]; rfl
    by_cases hex : ∃ b ∈ cfg.basicBlocks, b.id = j
    · obtain ⟨b, hb, hbj⟩ := hex
      have := (hblock b hb).2.2.2.1
      rw [hbj, hg] at this
      omega
    · have hj1 : ∀ b ∈ cfg.basicBlocks, b.id ≠ j := fun b hb e => hex ⟨b, hb, e⟩
      rw [hempty j hj1] at hg
      rw [← hg]
      simp

theorem touches_of_writesVar {b : BasicBlock} {v : Nat} (h : b.writesVar v) : b.touches v := by
  obtain ⟨bind, hb, hd⟩ := h
  exact Or.inl ⟨bind, hb, Or.inl hd⟩

theorem pass_spec (cfg : CFG) (iag : LocalRef → Bool) (h : cfg.IdsInRange) :
    ∃ r ps,
      firstPass iag cfg.maxVariableId (PassState.init cfg.maxBasicBlockId)
        cfg.basicBlocks = some ps ∧
      cfg.findAllReadsAndWrites iag = some r ∧
      r.reads = ps.reads ∧ r.dead = ps.dead ∧
      ps.Sized cfg.maxBasicBlockId ∧
      r.writes.length = cfg.maxBasicBlockId ∧
      (∀ j, (r.writes.getD j []).length = (ps.writes.getD j []).length) ∧
      (∀ b ∈ cfg.basicBlocks,
        (ps.reads.getD b.id []).length = cfg.maxVariableId ∧
        (ps.writes.getD b.id []).length = cfg.maxVariableId ∧
        (ps.dead.getD b.id []).length = cfg.maxVariableId ∧
        (ps.readsAndWrites.getD b.id []).length = cfg.maxVariableId ∧
        (∀ v, tbit ps.reads b.id v = true ↔ b.readsVar iag v) ∧
        (∀ v, tbit ps.writes b.id v = true ↔ b.writesVar v) ∧
        (∀ v, tbit ps.dead b.id v = true ↔ deadIn iag b.exprs v) ∧
        (∀ v, tbit ps.readsAndWrites b.id v = true ↔ b.touches v)) ∧
      (∀ b ∈ cfg.basicBlocks, ∀ v, tbit r.writes b.id v = true ↔
        b.writesVar v ∧ ∃ b1 ∈ cfg.basicBlocks, b1 ≠ b ∧ b1.touches v) := by
  obtain ⟨ps, e, s, rows, keep⟩ := firstPass_init_spec cfg iag h
  obtain ⟨hblock, hsome, hrowlen⟩ := firstPass_rows cfg iag h rows keep s
  have huc0 : (resize ((0, 0) : Nat × Nat) [] cfg.maxVariableId).length = cfg.maxVariableId := by
    simp [resize]
  obtain ⟨uc, euc, luc, puc⟩ := tallyBlocks_spec ps.readsAndWrites cfg.maxBasicBlockId 0
    (resize (0, 0) [] cfg.maxVariableId) (by rw [s.2.2.2]; omega)
    (by rw [huc0]; exact hrowlen)
  -- the usage count of every variable, and what it knows
  have hucv : ∀ (i : Nat) (u : Nat × Nat), uc[i]? = some u →
      i < cfg.maxVariableId ∧
      TallyInv ps.readsAndWrites i cfg.maxBasicBlockId u := by
    intro i u hi
    have hil : i < cfg.maxVariableId := by
      rcases Nat.lt_or_ge i uc.length with hlt | hge
      · rw [luc, huc0] at hlt; exact hlt
      · rw [List.getElem?_eq_none hge] at hi; cases hi
    rw [puc i] at hi
    have h0 : (resize ((0, 0) : Nat × Nat) [] cfg.maxVariableId)[i]? = some (0, 0) := by
      simp [resize, List.getElem?_replicate, hil]
    rw [h0] at hi
    simp only [Option.map_some', Option.some.injEq] at hi
    refine ⟨hil, ?_⟩
    rw [← hi]
    have := tallyVar_inv ps.readsAndWrites i cfg.maxBasicBlockId 0 (0, 0) (tallyInv_init _ _)
    simpa using this
  have hucsome : ∀ i, i < cfg.maxVariableId → ∃ u, uc[i]? = some u := by
    intro i hi
    have : i < uc.length := by rw [luc, huc0]; exact hi
    exact ⟨uc[i], List.getElem?_eq_getElem this⟩
  obtain ⟨w, ew, lw, rw_, bw⟩ := suppress_spec uc 0 ps.writes (by
    intro i u hi hu1
    obtain ⟨hil, hinv⟩ := hucv i u hi
    obtain ⟨_, hbit, _⟩ := hinv.2.1 hu1
    obtain ⟨b, hb, hbj⟩ := hsome u.2 i hbit
    rw [← hbj, (hblock b hb).2.1]
    omega)
  refine ⟨{ reads := ps.reads, writes := w, dead := ps.dead }, ps, e, ?_, rfl, rfl, s,
    lw.trans s.2.1, rw_, hblock, ?_⟩
  · simp only [CFG.findAllReadsAndWrites, e, euc, ew, Option.bind_eq_bind, Option.some_bind,
      Option.pure_def]
  · intro b hb v
    obtain ⟨_, _, _, _, _, hw, _, hrw⟩ := hblock b hb
    show tbit w b.id v = true ↔ _
    rw [bw b.id v, hw v]
    constructor
    · rintro ⟨hwv, hno⟩
      refine ⟨hwv, ?_⟩
      have hbit : tbit ps.readsAndWrites b.id v = true := (hrw v).2 (touches_of_writesVar hwv)
      have hvlt : v < cfg.maxVariableId := by
        have := bit_lt_of_true _ _ hbit
        rw [(hblock b hb).2.2.2.1] at this
        exact this
      obtain ⟨u, hu⟩ := hucsome v hvlt
      obtain ⟨_, h0, h1, h2⟩ := hucv v u hu
      have hother : ∀ i, i ≠ b.id → tbit ps.readsAndWrites i v = true →
          ∃ b1 ∈ cfg.basicBlocks, b1 ≠ b ∧ b1.touches v := by
        intro i hi hbi
        obtain ⟨b1, hb1, hb1i⟩ := hsome i v hbi
        refine ⟨b1, hb1, ?_, ?_⟩
        · intro e1; subst e1; exact hi hb1i.symm
        · rw [← hb1i] at hbi
          exact ((hblock b1 hb1).2.2.2.2.2.2.2 v).1 hbi
      rcases Nat.lt_or_ge u.1 2 with hlt | hge
      · rcases Nat.eq_zero_or_pos u.1 with hz | hp
        · have := h0 hz b.id (h.ids_lt b hb)
          rw [hbit] at this; cases this
        · have hu1 : u.1 = 1 := by omega
          obtain ⟨_, _, huniq⟩ := h1 hu1
          have := huniq b.id (h.ids_lt b hb) hbit
          exact absurd ⟨v, u, hu, hu1, this.symm, by omega⟩ hno
      · obtain ⟨i1, i2, _, _, hne, hb1, hb2⟩ := h2 hge
        by_cases hi1 : i1 = b.id
        · exact hother i2 (fun e2 => hne (hi1.trans e2.symm)) hb2
        · exact hother i1 hi1 hb1
    · rintro ⟨hwv, b1, hb1, hne, ht⟩
      refine ⟨hwv, ?_⟩
      rintro ⟨i, u, hi, hu1, hu2, hiv⟩
      have hiv1 : i = v := by omega
      subst hiv1
      obtain ⟨_, _, h1, _⟩ := hucv i u hi
      obtain ⟨_, _, huniq⟩ := h1 hu1
      have hbit1 : tbit ps.readsAndWrites b1.id i = true :=
        ((hblock b1 hb1).2.2.2.2.2.2.2 i).2 ht
      have hid : b1.id = b.id := (huniq b1.id (h.ids_lt b1 hb1) hbit1).trans hu2
      exact hne (List.inj_on_of_nodup_map h.ids_nodup hb1 hb hid)

theorem entry_eq_some_true (t : Table) (j v : Nat) :
    entry t j v = some true ↔ tbit t j v = true := by
  unfold entry tbit bit
  cases hj : t[j]? with
  | none => simp [List.getD_eq_getElem?_getD, hj]
  | some row =>
    cases hv : row[v]? with
    | none => simp [List.getD_eq_getElem?_getD, hj, hv]
    | some x => simp [List.getD_eq_getElem?_getD, hj, hv]

theorem entry_eq_some_tbit (t : Table) (j v : Nat) (hv : v < (t.getD j []).length) :
    entry t j v = some (tbit t j v) := by
  have hj : j < t.length := lt_length_of_row_pos t j v hv
  have hrow : t.getD j [] = t[j] := by
    simp [List.getD_eq_getElem?_getD, List.getElem?_eq_getElem hj]
  unfold entry tbit
  rw [hrow] at hv ⊢
  simp only [List.getElem?_eq_getElem hj, Option.bind_eq_bind, Option.some_bind]
  exact getElem?_eq_some_bit _ _ hv

/-- The three tables returned by the pass, summarised: sizes and the meaning of every bit
of the row of every block. -/
theorem findAllReadsAndWrites_spec (cfg : CFG) (iag : LocalRef → Bool) (h : cfg.IdsInRange) :
    ∃ r, cfg.findAllReadsAndWrites iag = some r ∧
      r.reads.length = cfg.maxBasicBlockId ∧
      r.writes.length = cfg.maxBasicBlockId ∧
      r.dead.length = cfg.maxBasicBlockId ∧
      ∀ b ∈ cfg.basicBlocks,
        (r.reads.getD b.id []).length = cfg.maxVariableId ∧
        (r.writes.getD b.id []).length = cfg.maxVariableId ∧
        (r.dead.getD b.id []).length = cfg.maxVariableId ∧
        (∀ v, tbit r.reads b.id v = true ↔ b.readsVar iag v) ∧
        (∀ v, tbit r.writes b.id v = true ↔
          b.writesVar v ∧ ∃ b1 ∈ cfg.basicBlocks, b1 ≠ b ∧ b1.touches v) ∧
        (∀ v, tbit r.dead b.id v = true ↔ deadIn iag b.exprs v) := by
  obtain ⟨r, ps, _, e, hr, hd, s, lw, rowsw, hblock, hw⟩ := pass_spec cfg iag h
  refine ⟨r, e, by rw [hr]; exact s.1, lw, by rw [hd]; exact s.2.2.1, ?_⟩
  intro b hb
  obtain ⟨l1, l2, l3, _, b1, _, b3, _⟩ := hblock b hb
  refine ⟨by rw [hr]; exact l1, by rw [rowsw]; exact l2, by rw [hd]; exact l3, ?_, hw b hb, ?_⟩
  · rw [hr]; exact b1
  · rw [hd]; exact b3

theorem exampleSingleCopy_inRange : exampleSingleCopy.IdsInRange :=
  ⟨by decide, by decide, by decide⟩

theorem exampleTwoCopies_inRange : exampleTwoCopies.IdsInRange :=
  ⟨by decide, by decide, by decide⟩

theorem exampleCrossBlock_inRange : exampleCrossBlock.IdsInRange :=
  ⟨by decide, by decide, by decide⟩

theorem enforce_bind (c : Bool) (k : Unit → Option Unit) :
    (enforce c).bind k = some () ↔ c = true ∧ k () = some () := by
  cases c <;> simp [enforce]

theorem enforce_eq_some (c : Bool) : enforce c = some () ↔ c = true := by
  cases c <;> simp [enforce]

theorem sanityCheckLoop_iff (cfg : CFG) (bs : List BasicBlock) :
    ∀ p, sanityCheckLoop cfg p bs = some () ↔
      ∀ (i : Nat) (b : BasicBlock), bs[i]? = some b → sanityCheckBlock cfg (p + i) b = some () := by
  induction bs with
  | nil => intro p; simp [sanityCheckLoop]
  | cons bb rest ih =>
    intro p
    have hstep : sanityCheckLoop cfg p (bb :: rest) = some () ↔
        sanityCheckBlock cfg p bb = some () ∧ sanityCheckLoop cfg (p + 1) rest = some () := by
      simp only [sanityCheckLoop, Option.bind_eq_bind]
      cases sanityCheckBlock cfg p bb with
      | none => simp
      | some u => simp
    rw [hstep, ih (p + 1)]
    constructor
    · rintro ⟨h0, hr⟩ i b hi
      cases i with
      | zero =>
        simp only [List.getElem?_cons_zero, Option.some.injEq] at hi
        subst hi
        exact h0
      | succ i =>
        have := hr i b (by simpa using hi)
        have e : p + 1 + i = p + (i + 1) := by omega
        rw [e] at this
        exact this
    · intro h
      refine ⟨h 0 bb (by simp), ?_⟩
      intro i b hi
      have := h (i + 1) b (by simpa using hi)
      have e : p + 1 + i = p + (i + 1) := by omega
      rw [e]
      exact this

theorem sanityCheckBlock_iff (cfg : CFG) (p : Nat) (bb : BasicBlock)
    (hdead : 1 < cfg.basicBlocks.length) (hset : bb.bexit.isCondSet = true)
    (hp : p ≠ cfg.deadBlock) :
    sanityCheckBlock cfg p bb = some () ↔
      ((bb.bexit.cond.variable_.exists_ = true ↔ bb.bexit.thenb ≠ bb.bexit.elseb) ∧
       (∃ t tb, bb.bexit.thenb = some t ∧ cfg.basicBlocks[t]? = some tb ∧
          tb.backEdges.count p = 1) ∧
       (bb.bexit.thenb ≠ bb.bexit.elseb →
          ∃ e eb, bb.bexit.elseb = some e ∧ cfg.basicBlocks[e]? = some eb ∧
            eb.backEdges.count p = 1)) := by
  have hd : cfg.basicBlocks[cfg.deadBlock]? = some cfg.basicBlocks[1] :=
    List.getElem?_eq_getElem hdead
  simp only [sanityCheckBlock, hset, enforce, if_true, hd, hp, if_false, Option.bind_eq_bind,
    Option.some_bind, c_count, Option.pure_def]
  cases ht : bb.bexit.thenb with
  | none => simp
  | some t =>
    cases htb : cfg.basicBlocks[t]? with
    | none => simp [htb]
    | some tb =>
      cases he : bb.bexit.elseb with
      | none => simp [htb]
      | some e =>
        cases heb : cfg.basicBlocks[e]? with
        | none =>
          have hne : t ≠ e := by
            intro h; subst h; rw [htb] at heb; cases heb
          simp [hne, htb, heb]
        | some eb =>
          by_cases hte : t = e
          · subst hte
            rw [htb] at heb
            cases heb
            cases hx : bb.bexit.cond.variable_.exists_ <;>
              by_cases hc : List.count p tb.backEdges = 1 <;> simp [hc, htb]
          · cases hx : bb.bexit.cond.variable_.exists_ <;>
              by_cases hc : List.count p tb.backEdges = 1 <;>
              by_cases hc2 : List.count p eb.backEdges = 1 <;>
              simp [hc, hc2, hte, htb, heb]

theorem exampleWired_passes : exampleWired.sanityCheck true = some () := by decide

theorem blockStep_congr (iag : LocalRef → Bool) (n : Nat) (ps : PassState)
    {b1 b2 : BasicBlock} (h : b1.SameContents b2) :
    blockStep iag n ps b1 = blockStep iag n ps b2 := by
  obtain ⟨h1, h2, h3⟩ := h
  simp only [blockStep, scanBlock, markExit, h1, h2, h3]

theorem firstPass_congr (iag : LocalRef → Bool) (n : Nat) {bs1 bs2 : List BasicBlock}
    (h : List.Forall₂ BasicBlock.SameContents bs1 bs2) :
    ∀ ps, firstPass iag n ps bs1 = firstPass iag n ps bs2 := by
  induction h with
  | nil => intro ps; rfl
  | cons hb _ ih =>
    intro ps
    simp only [firstPass, blockStep_congr iag n ps hb]
    cases blockStep iag n ps _ with
    | none => rfl
    | some ps1 => exact ih ps1

theorem reachable_dead (cfg : CFG) (h : Reachable cfg) :
    ∃ d, cfg.basicBlocks[cfg.deadBlock]? = some d ∧ d.bexit.thenb = some cfg.deadBlock ∧
      d.bexit.elseb = some cfg.deadBlock ∧ d.bexit.cond.variable_.exists_ = false := by
  induction h with
  | new => rw [new_eq]; exact ⟨_, rfl, rfl, rfl, rfl⟩
  | freshBlock o r _ ih =>
    obtain ⟨d, hd, h1, h2, h3⟩ := ih
    refine ⟨d, ?_, h1, h2, h3⟩
    simp only [CFG.freshBlock, CFG.deadBlock] at hd ⊢
    have hlt : 1 < List.length _ := (List.getElem?_eq_some.1 hd).1
    rw [List.getElem?_append_left hlt]
    exact hd

theorem exampleRewrite_inRange : exampleRewrite.IdsInRange :=
  ⟨by decide, by decide, by decide⟩

theorem exampleExitOnWritten_inRange : exampleExitOnWritten.IdsInRange :=
  ⟨by decide, by decide, by decide⟩

theorem exampleSharedCopy_inRange : exampleSharedCopy.IdsInRange :=
  ⟨by decide, by decide, by decide⟩

theorem row_ext (r1 r2 : Row) (hlen : r1.length = r2.length)
    (hbit : ∀ v, bit r1 v = true ↔ bit r2 v = true) : r1 = r2 := by
  apply List.ext_getElem hlen
  intro v h1 h2
  have e1 := getElem?_eq_some_bit r1 v h1
  have e2 := getElem?_eq_some_bit r2 v h2
  rw [List.getElem?_eq_getElem h1] at e1
  rw [List.getElem?_eq_getElem h2] at e2
  have := hbit v
  cases hb1 : bit r1 v <;> cases hb2 : bit r2 v <;> simp_all

theorem getElem?_eq_some_getD (t : Table) (j : Nat) (hj : j < t.length) :
    t[j]? = some (t.getD j []) := by
  simp [List.getD_eq_getElem?_getD, List.getElem?_eq_getElem hj]

theorem deadIn_append (iag : LocalRef → Bool) (p q : List Binding) (v : Nat)
    (h : deadIn iag p v) : deadIn iag (p ++ q) v := by
  obtain ⟨i, bind, hi, hd, hno⟩ := h
  have hlt : i < p.length := (List.getElem?_eq_some.1 hi).1
  refine ⟨i, bind, by rw [List.getElem?_append_left hlt]; exact hi, hd, ?_⟩
  intro j bind1 hj hb1
  rw [List.getElem?_append_left (by omega)] at hb1
  exact hno j bind1 hj hb1

theorem writesVar_of_deadIn {iag : LocalRef → Bool} {b : BasicBlock} {v : Nat}
    (h : deadIn iag b.exprs v) : b.writesVar v := by
  obtain ⟨i, bind, hi, hd, _⟩ := h
  exact ⟨bind, List.getElem?_mem hi, hd⟩

theorem touches_iff (iag : LocalRef → Bool) (b : BasicBlock) (v : Nat) :
    b.touches v ↔ b.readsVar iag v ∨ b.writesVar v := by
  constructor
  · rintro (⟨bind, hb, hd | hr⟩ | hx)
    · exact Or.inr ⟨bind, hb, hd⟩
    · exact Or.inl (Or.inl ⟨bind, hb, hr⟩)
    · exact Or.inl (Or.inr (Or.inl hx))
  · rintro ((⟨bind, hb, hr⟩ | hx | ⟨bind, hb, hd, _, _⟩) | ⟨bind, hb, hd⟩)
    · exact Or.inl ⟨bind, hb, Or.inr hr⟩
    · exact Or.inr hx
    · exact Or.inl ⟨bind, hb, Or.inl hd⟩
    · exact Or.inl ⟨bind, hb, Or.inl hd⟩

theorem sanityCheck_of_wired (cfg : CFG) (hdead : 1 < cfg.basicBlocks.length)
    (hset : ∀ b ∈ cfg.basicBlocks, b.bexit.isCondSet = true)
    (hgood : ∀ (p : Nat) (b : BasicBlock), cfg.basicBlocks[p]? = some b →
      p ≠ cfg.deadBlock → cfg.WiredAt p b) :
    cfg.sanityCheck true = some () := by
  have hrun : cfg.sanityCheck true = sanityCheckLoop cfg 0 cfg.basicBlocks := by
    simp [CFG.sanityCheck]
  rw [hrun, sanityCheckLoop_iff]
  intro i b hib
  have hb : b ∈ cfg.basicBlocks := List.getElem?_mem hib
  rw [Nat.zero_add]
  by_cases hp : i = cfg.deadBlock
  · have hd : cfg.basicBlocks[cfg.deadBlock]? = some cfg.basicBlocks[1] :=
      List.getElem?_eq_getElem hdead
    simp [sanityCheckBlock, hset b hb, enforce, hd, hp]
  · exact (sanityCheckBlock_iff cfg i b hdead (hset b hb) hp).2 (hgood i b hib hp)

theorem sanityCheck_dead_unset (cfg : CFG) (d : BasicBlock)
    (hd : cfg.basicBlocks[cfg.deadBlock]? = some d) (hunset : d.bexit.isCondSet = false) :
    cfg.sanityCheck true = none := by
  have hrun : cfg.sanityCheck true = sanityCheckLoop cfg 0 cfg.basicBlocks := by
    simp [CFG.sanityCheck]
  cases hres : cfg.sanityCheck true with
  | none => rfl
  | some u =>
    rw [hrun, sanityCheckLoop_iff] at hres
    have := hres cfg.deadBlock d hd
    simp [sanityCheckBlock, hunset, enforce] at this

theorem wiredAt_modify_dead_exit (cfg : CFG) (e : BlockExit) (p : Nat) (b : BasicBlock)
    (h : cfg.WiredAt p b) :
    (cfg.modifyBlock cfg.deadBlock (fun d => { d with bexit := e })).WiredAt p b := by
  have hget : ∀ (t : Nat) (tb : BasicBlock), cfg.basicBlocks[t]? = some tb →
      ∃ tb1, (cfg.modifyBlock cfg.deadBlock
        (fun d => { d with bexit := e })).basicBlocks[t]? = some tb1 ∧
        tb1.backEdges = tb.backEdges := by
    intro t tb ht
    simp only [CFG.modifyBlock, List.getElem?_modify, ht, Option.map_eq_map, Option.map_some']
    by_cases h1 : cfg.deadBlock = t
    · exact ⟨{ tb with bexit := e }, by simp [h1], rfl⟩
    · exact ⟨tb, by simp [h1], rfl⟩
  obtain ⟨h1, ⟨t, tb, ht, htb, htc⟩, h3⟩ := h
  refine ⟨h1, ?_, ?_⟩
  · obtain ⟨tb1, g1, g2⟩ := hget t tb htb
    exact ⟨t, tb1, ht, g1, by rw [g2]; exact htc⟩
  · intro hne
    obtain ⟨e1, eb, he, heb, hec⟩ := h3 hne
    obtain ⟨eb1, g1, g2⟩ := hget e1 eb heb
    exact ⟨e1, eb1, he, g1, by rw [g2]; exact hec⟩

theorem exampleWired_wired (p : Nat) (b : BasicBlock)
    (hpb : exampleWired.basicBlocks[p]? = some b) (hp : p ≠ exampleWired.deadBlock) :
    exampleWired.WiredAt p b := by
  have hset : ∀ c ∈ exampleWired.basicBlocks, c.bexit.isCondSet = true := by decide
  have hrun := (sanityCheckLoop_iff exampleWired exampleWired.basicBlocks 0).1
    (by decide) p b hpb
  rw [Nat.zero_add] at hrun
  exact (sanityCheckBlock_iff exampleWired p b (by decide)
    (hset b (List.getElem?_mem hpb)) hp).1 hrun

theorem concatTexts_append (xs ys : List String) :
    concatTexts (xs ++ ys) = concatTexts xs ++ concatTexts ys := by
  induction xs with
  | nil => simp [concatTexts]
  | cons x rest ih => simp [concatTexts, ih, String.append_assoc]

theorem renderBlock_eq (cfg : CFG) (cEscape : String → String) (symbolName : String)
    (blockText : BasicBlock → String) (buf : String) (bb : BasicBlock) :
    renderBlock cfg cEscape symbolName (blockText bb) buf bb =
      (blockItems cfg (fun b => joinLabel cEscape (blockText b)) bb).map
        (fun items => buf ++ concatTexts (items.map (GraphItem.text symbolName))) := by
  unfold renderBlock blockItems
  cases ht : bb.bexit.thenb with
  | none => simp
  | some t =>
    cases htb : cfg.basicBlocks[t]? with
    | none => simp [htb]
    | some tb =>
      cases he : bb.bexit.elseb with
      | none =>
        simp only [Option.bind_eq_bind, Option.some_bind, htb, Option.none_bind, ne_eq,
          reduceCtorEq, not_false_eq_true, if_true, if_false, Option.map_none']
      | some e =>
        by_cases hte : t = e
        · subst hte
          simp only [Option.bind_eq_bind, Option.some_bind, htb, ne_eq, not_true_eq_false,
            if_true, if_false, Option.map_some', Option.pure_def, List.map_cons, List.map_nil,
            concatTexts, GraphItem.text, String.append_assoc, String.append_empty]
        · have hne : ¬ (some t = some e) := fun h => hte (Option.some.inj h)
          cases heb : cfg.basicBlocks[e]? with
          | none =>
            simp only [Option.bind_eq_bind, Option.some_bind, htb, heb, ne_eq, hne,
              not_false_eq_true, if_true, if_false, Option.none_bind, Option.map_none']
          | some eb =>
            simp only [Option.bind_eq_bind, Option.some_bind, htb, heb, ne_eq, hne,
              not_false_eq_true, if_true, if_false, Option.map_some', Option.pure_def,
              List.map_cons, List.map_nil, concatTexts, GraphItem.text, String.append_assoc,
              String.append_empty]

theorem renderBlocks_eq (cfg : CFG) (cEscape : String → String) (symbolName : String)
    (blockText : BasicBlock → String) (bs : List BasicBlock) :
    ∀ buf, renderBlocks cfg cEscape symbolName blockText buf bs =
      (graphSegments cfg (fun b => joinLabel cEscape (blockText b)) bs).map
        (fun segments =>
          buf ++ concatTexts (segments.flatten.map (GraphItem.text symbolName))) := by
  induction bs with
  | nil => intro buf; simp [renderBlocks, graphSegments, concatTexts]
  | cons bb rest ih =>
    intro buf
    simp only [renderBlocks, graphSegments, renderBlock_eq, Option.bind_eq_bind]
    cases hitems : blockItems cfg (fun b => joinLabel cEscape (blockText b)) bb with
    | none => simp
    | some items =>
      simp only [Option.map_some', Option.some_bind, ih]
      cases hrest : graphSegments cfg (fun b => joinLabel cEscape (blockText b)) rest with
      | none => simp
      | some segments =>
        simp [concatTexts_append, String.append_assoc]

theorem graphSegments_shape (cfg : CFG) (label : BasicBlock → String) (bs : List BasicBlock) :
    ∀ segments, graphSegments cfg label bs = some segments →
      segments.length = bs.length ∧
      ∀ (i : Nat) (bb : BasicBlock), bs[i]? = some bb →
        ∃ items, segments[i]? = some items ∧ blockItems cfg label bb = some items := by
  induction bs with
  | nil =>
    intro segments h
    simp only [graphSegments, Option.some.injEq] at h
    subst h
    exact ⟨rfl, fun i bb hi => by simp at hi⟩
  | cons b rest ih =>
    intro segments h
    simp only [graphSegments] at h
    cases hitems : blockItems cfg label b with
    | none => rw [hitems] at h; cases h
    | some items =>
      cases hrest : graphSegments cfg label rest with
      | none => rw [hitems, hrest] at h; cases h
      | some segs =>
        rw [hitems, hrest] at h
        simp only [Option.some.injEq] at h
        subst h
        obtain ⟨hl, hi⟩ := ih segs hrest
        refine ⟨by simp [hl], ?_⟩
        intro i bb hib
        cases i with
        | zero =>
          simp only [List.getElem?_cons_zero, Option.some.injEq] at hib
          subst hib
          exact ⟨items, by simp, hitems⟩
        | succ i =>
          obtain ⟨its, h1, h2⟩ := hi i bb (by simpa using hib)
          exact ⟨its, by simpa using h1, h2⟩

theorem graphSegments_isSome (cfg : CFG) (label : BasicBlock → String) (bs : List BasicBlock)
    (h : ∀ bb ∈ bs, ∃ items, blockItems cfg label bb = some items) :
    ∃ segments, graphSegments cfg label bs = some segments := by
  induction bs with
  | nil => exact ⟨[], rfl⟩
  | cons b rest ih =>
    obtain ⟨items, hitems⟩ := h b (List.mem_cons_self _ _)
    obtain ⟨segs, hsegs⟩ := ih (fun bb hbb => h bb (List.mem_cons_of_mem _ hbb))
    exact ⟨items :: segs, by simp [graphSegments, hitems, hsegs]⟩

theorem blockItems_shape (cfg : CFG) (label : BasicBlock → String) (bb : BasicBlock)
    (items : List GraphItem) (h : blockItems cfg label bb = some items) :
    ∃ t thenBlock, bb.bexit.thenb = some t ∧ cfg.basicBlocks[t]? = some thenBlock ∧
      items.filter GraphItem.isNode = [GraphItem.node bb.id (label bb)] ∧
      items.filter GraphItem.isPrimary = [GraphItem.primaryEdge bb.id thenBlock.id] ∧
      (bb.bexit.thenb = bb.bexit.elseb → items.filter GraphItem.isSecondary = []) ∧
      (bb.bexit.thenb ≠ bb.bexit.elseb →
        ∃ e elseBlock, bb.bexit.elseb = some e ∧ cfg.basicBlocks[e]? = some elseBlock ∧
          items.filter GraphItem.isSecondary = [GraphItem.secondaryEdge bb.id elseBlock.id]) ∧
      items.length = (if bb.bexit.thenb = bb.bexit.elseb then 2 else 3) := by
  unfold blockItems at h
  cases ht : bb.bexit.thenb with
  | none => rw [ht] at h; simp at h
  | some t =>
    rw [ht] at h
    cases htb : cfg.basicBlocks[t]? with
    | none => simp [htb] at h
    | some tb =>
      simp only [Option.some_bind, htb] at h
      cases he : bb.bexit.elseb with
      | none =>
        rw [he] at h
        simp at h
      | some e =>
        rw [he] at h
        by_cases hte : t = e
        · subst hte
          simp only [if_true, Option.some.injEq] at h
          subst h
          refine ⟨t, tb, rfl, htb, rfl, rfl, fun _ => rfl, fun hne => absurd rfl hne, ?_⟩
          simp
        · have hne : ¬ (some t = some e) := fun h => hte (Option.some.inj h)
          simp only [hne, if_false, Option.some_bind] at h
          cases heb : cfg.basicBlocks[e]? with
          | none => rw [heb] at h; cases h
          | some eb =>
            rw [heb] at h
            simp only [Option.some.injEq] at h
            subst h
            refine ⟨t, tb, rfl, htb, rfl, rfl, fun heq => absurd heq hne,
              fun _ => ⟨e, eb, rfl, heb, rfl⟩, ?_⟩
            simp [hne]

/-- The element list of `exampleBranch`: the entry block has two edges, the other two
blocks one each. -/
theorem exampleBranch_segments (label : BasicBlock → String) :
    graphSegments exampleBranch label exampleBranch.basicBlocks =
      some [[GraphItem.node 0 (label (exampleBranch.basicBlocks.getD 0 BasicBlock.fresh)),
             GraphItem.primaryEdge 0 2, GraphItem.secondaryEdge 0 1],
            [GraphItem.node 1 (label (exampleBranch.basicBlocks.getD 1 BasicBlock.fresh)),
             GraphItem.primaryEdge 1 1],
            [GraphItem.node 2 (label (exampleBranch.basicBlocks.getD 2 BasicBlock.fresh)),
             GraphItem.primaryEdge 2 1]] := by
  rfl

/-! # The claims -/

/-- C7: a newly constructed CFG holds exactly two blocks, with ids 0 (entry) and 1 (dead),
both with loop depth 0 and closure id 0; the then-target and the else-target of the dead
block are the dead block itself, and its exit condition variable does not exist. -/
theorem C7_new_cfg :
    CFG.new.basicBlocks.length = 2 ∧
    CFG.new.basicBlocks.map (fun b => b.id) = [0, 1] ∧
    (∀ b ∈ CFG.new.basicBlocks, b.outerLoops = 0 ∧ b.rubyBlockId = 0) ∧
    ∃ dead, CFG.new.basicBlocks[CFG.new.deadBlock]? = some dead ∧
      dead.id = 1 ∧
      dead.bexit.thenb = some CFG.new.deadBlock ∧
      dead.bexit.elseb = some CFG.new.deadBlock ∧
      dead.bexit.cond.variable_.exists_ = false := by
  rw [new_eq]
  refine ⟨rfl, rfl, ?_, ?_⟩
  · intro b hb
    simp at hb
    rcases hb with hb | hb <;> subst hb <;> exact ⟨rfl, rfl⟩
  · exact ⟨_, rfl, rfl, rfl, rfl, rfl⟩

/-- C8: on a CFG obtained from `new()` by `freshBlock` calls and holding `N` blocks, the
`j`-th of any further sequence of `freshBlock` calls returns the block at position `N + j`,
whose id is `N + j` (larger than the id of every block present before that call, and 2 for
the first call after `new()`), which carries the `outerLoops` and `rubyBlockId` passed to
the call and is the last element of the block list when the call returns. -/
theorem C8_freshBlock_ids (cfg : CFG) (hreach : Reachable cfg) (calls : List (Int × Int))
    (j : Nat) (call : Int × Int) (hj : calls[j]? = some call) :
    ∃ blk,
      (cfg.freshBlocks calls).2[j]? = some (cfg.basicBlocks.length + j) ∧
      (cfg.freshBlocks calls).1.basicBlocks[cfg.basicBlocks.length + j]? = some blk ∧
      (cfg.freshBlocks (calls.take (j + 1))).1.basicBlocks.getLast? = some blk ∧
      blk.id = cfg.basicBlocks.length + j ∧
      blk.outerLoops = call.1 ∧
      blk.rubyBlockId = call.2 ∧
      (∀ b ∈ (cfg.freshBlocks (calls.take j)).1.basicBlocks, b.id < blk.id) ∧
      (cfg = CFG.new → j = 0 → blk.id = 2) := by
  have hd := reachable_denseIndex hreach
  have hjlt : j < calls.length := by
    rcases Nat.lt_or_ge j calls.length with h | h
    · exact h
    · rw [List.getElem?_eq_none h] at hj; cases hj
  refine ⟨allocated call (cfg.maxBasicBlockId + j), ?_, ?_, ?_, ?_, rfl, rfl, ?_, ?_⟩
  · rw [freshBlocks_eq]
    simp [List.getElem?_range', hjlt]
  · rw [freshBlocks_eq]
    simp only []
    rw [List.getElem?_append_right (Nat.le_add_right _ _)]
    simpa using allocatedFrom_getElem? calls cfg.maxBasicBlockId j call hj
  · rw [freshBlocks_eq]
    simp only []
    have ht : calls.take (j + 1) = calls.take j ++ [call] := by
      rw [List.take_succ, hj]; rfl
    rw [ht, allocatedFrom_append, ← List.append_assoc]
    simp [allocatedFrom, List.length_take, Nat.min_eq_left (Nat.le_of_lt hjlt)]
  · simp [allocated, hd.2.2]
  · rw [freshBlocks_eq]
    intro b hb
    simp only [List.mem_append] at hb
    have hlen : (calls.take j).length = j := by
      simp [List.length_take, Nat.min_eq_left (Nat.le_of_lt hjlt)]
    rcases hb with hb | hb
    · have := denseIndex_id_lt hd b hb
      simp only [allocated, hd.2.2]
      omega
    · have := allocatedFrom_id_ge (calls.take j) cfg.maxBasicBlockId b hb
      rw [hlen] at this
      simp only [allocated]
      omega
  · intro hc hj0
    subst hc hj0
    rfl

theorem C8_freshBlock_ids_witness :
    ∃ blk,
      (CFG.new.freshBlocks [(1, 0), (2, 5)]).2[1]? = some (CFG.new.basicBlocks.length + 1) ∧
      (CFG.new.freshBlocks [(1, 0), (2, 5)]).1.basicBlocks[CFG.new.basicBlocks.length + 1]? =
        some blk ∧
      (CFG.new.freshBlocks ([(1, 0), (2, 5)].take (1 + 1))).1.basicBlocks.getLast? = some blk ∧
      blk.id = CFG.new.basicBlocks.length + 1 ∧
      blk.outerLoops = ((2, 5) : Int × Int).1 ∧
      blk.rubyBlockId = ((2, 5) : Int × Int).2 ∧
      (∀ b ∈ (CFG.new.freshBlocks ([(1, 0), (2, 5)].take 1)).1.basicBlocks, b.id < blk.id) ∧
      (CFG.new = CFG.new → 1 = 0 → blk.id = 2) :=
  C8_freshBlock_ids CFG.new Reachable.new [(1, 0), (2, 5)] 1 (2, 5) rfl

/-- C10: every CFG reachable from `new()` by `freshBlock` calls satisfies the dense-index
invariant (the block at position `i` has id `i`, the ids are pairwise distinct, and
`maxBasicBlockId` is the number of blocks), and `freshBlock` preserves the invariant. -/
theorem C10_dense_index :
    (∀ cfg : CFG, Reachable cfg → cfg.DenseIndex) ∧
    (∀ (cfg : CFG) (outerLoops rubyBlockId : Int), cfg.DenseIndex →
      (cfg.freshBlock outerLoops rubyBlockId).1.DenseIndex) :=
  ⟨fun _ h => reachable_denseIndex h, fun _ o r h => denseIndex_freshBlock h o r⟩

theorem C10_dense_index_witness :
    ((CFG.new.freshBlock 3 1).1.freshBlock 0 2).1.DenseIndex :=
  C10_dense_index.2 _ 0 2
    (C10_dense_index.1 _ (Reachable.freshBlock 3 1 Reachable.new))

/-- C1: under the precondition (block ids pairwise distinct and below `maxBasicBlockId`,
variable ids below `maxVariableId`) the pass returns, and for every block `b` and variable
`v` the final `writes[b][v]` is true exactly when some binding of `b` has destination `v`
and `v` is touched in a block other than `b`.  In particular a variable written in `b` and
touched in no other block has `writes[b][v] = false`, and a variable written in `b` and
touched in another block keeps `writes[b][v] = true`. -/
theorem C1_writes_iff_written_and_shared (cfg : CFG) (isAliasForGlobal : LocalRef → Bool)
    (hpre : cfg.IdsInRange) :
    ∃ r, cfg.findAllReadsAndWrites isAliasForGlobal = some r ∧
      ∀ b ∈ cfg.basicBlocks, ∀ v,
        (entry r.writes b.id v = some true ↔
          b.writesVar v ∧ ∃ b1 ∈ cfg.basicBlocks, b1 ≠ b ∧ b1.touches v) ∧
        (b.writesVar v → (∀ b1 ∈ cfg.basicBlocks, b1 ≠ b → ¬ b1.touches v) →
          entry r.writes b.id v = some false) ∧
        (b.writesVar v → (∃ b1 ∈ cfg.basicBlocks, b1 ≠ b ∧ b1.touches v) →
          entry r.writes b.id v = some true) := by
  obtain ⟨r, e, _, _, _, hb⟩ := findAllReadsAndWrites_spec cfg isAliasForGlobal hpre
  refine ⟨r, e, ?_⟩
  intro b hbm v
  obtain ⟨_, lw, _, _, hw, _⟩ := hb b hbm
  have hiff : entry r.writes b.id v = some true ↔
      b.writesVar v ∧ ∃ b1 ∈ cfg.basicBlocks, b1 ≠ b ∧ b1.touches v := by
    rw [entry_eq_some_true]; exact hw v
  refine ⟨hiff, ?_, fun h1 h2 => hiff.2 ⟨h1, h2⟩⟩
  intro hwv hnone
  obtain ⟨bind, hbind, hdest⟩ := hwv
  have hvlt : v < cfg.maxVariableId := by
    rw [← hdest]; exact ((hpre.vars_lt b hbm).1 bind hbind).1
  rw [entry_eq_some_tbit _ _ _ (by rw [lw]; exact hvlt)]
  cases hbit : tbit r.writes b.id v with
  | false => rfl
  | true =>
    obtain ⟨_, b1, hb1, hne, ht⟩ := (hw v).1 hbit
    exact absurd ht (hnone b1 hb1 hne)

theorem C1_writes_iff_written_and_shared_witness :
    exampleCrossBlock.IdsInRange ∧
    ∃ r, exampleCrossBlock.findAllReadsAndWrites (fun _ => false) = some r ∧
      ∀ b ∈ exampleCrossBlock.basicBlocks, ∀ v,
        (entry r.writes b.id v = some true ↔
          b.writesVar v ∧ ∃ b1 ∈ exampleCrossBlock.basicBlocks, b1 ≠ b ∧ b1.touches v) ∧
        (b.writesVar v → (∀ b1 ∈ exampleCrossBlock.basicBlocks, b1 ≠ b → ¬ b1.touches v) →
          entry r.writes b.id v = some false) ∧
        (b.writesVar v → (∃ b1 ∈ exampleCrossBlock.basicBlocks, b1 ≠ b ∧ b1.touches v) →
          entry r.writes b.id v = some true) :=
  ⟨exampleCrossBlock_inRange,
   C1_writes_iff_written_and_shared exampleCrossBlock (fun _ => false)
     exampleCrossBlock_inRange⟩

/-- C4: under the precondition of the pass, for every block `b` and variable `v`,
`reads[b][v]` is true exactly when `v` is a declared read operand of the instruction of
some binding of `b`, or `b` has an existing exit condition variable equal to `v`, or `v` is
the destination of a binding of `b` whose instruction is not an `Alias` and which is an
alias for a global. -/
theorem C4_reads_iff (cfg : CFG) (isAliasForGlobal : LocalRef → Bool)
    (hpre : cfg.IdsInRange) :
    ∃ r, cfg.findAllReadsAndWrites isAliasForGlobal = some r ∧
      ∀ b ∈ cfg.basicBlocks, ∀ v,
        (entry r.reads b.id v = some true ↔
          (∃ bind ∈ b.exprs, v ∈ bind.value.readIds) ∨
          (b.bexit.cond.variable_.exists_ = true ∧ b.bexit.cond.variable_.id = v) ∨
          (∃ bind ∈ b.exprs, bind.bind.variable_.id = v ∧ bind.value.isAlias = false ∧
            isAliasForGlobal bind.bind.variable_ = true)) := by
  obtain ⟨r, e, _, _, _, hb⟩ := findAllReadsAndWrites_spec cfg isAliasForGlobal hpre
  refine ⟨r, e, ?_⟩
  intro b hbm v
  rw [entry_eq_some_true]
  exact (hb b hbm).2.2.2.1 v

theorem C4_reads_iff_witness :
    exampleCrossBlock.IdsInRange ∧
    ∃ r, exampleCrossBlock.findAllReadsAndWrites (fun _ => false) = some r ∧
      ∀ b ∈ exampleCrossBlock.basicBlocks, ∀ v,
        (entry r.reads b.id v = some true ↔
          (∃ bind ∈ b.exprs, v ∈ bind.value.readIds) ∨
          (b.bexit.cond.variable_.exists_ = true ∧ b.bexit.cond.variable_.id = v) ∨
          (∃ bind ∈ b.exprs, bind.bind.variable_.id = v ∧ bind.value.isAlias = false ∧
            (fun _ => false) bind.bind.variable_ = true)) :=
  ⟨exampleCrossBlock_inRange,
   C4_reads_iff exampleCrossBlock (fun _ => false) exampleCrossBlock_inRange⟩

/-- C5: under the precondition of the pass, for every block `b` and variable `v`,
`dead[b][v]` is true exactly when some binding of `b`, at a position `i`, has destination
`v` while none of the bindings `0..i` marks `v` as read (by an instruction operand or by
the global-alias rule).  In particular a block whose only binding is `x := copy(x)` has
`dead[b][x] = false`. -/
theorem C5_dead_iff (cfg : CFG) (isAliasForGlobal : LocalRef → Bool)
    (hpre : cfg.IdsInRange) :
    ∃ r, cfg.findAllReadsAndWrites isAliasForGlobal = some r ∧
      ∀ b ∈ cfg.basicBlocks,
        (∀ v, entry r.dead b.id v = some true ↔
          ∃ (i : Nat) (bind : Binding), b.exprs[i]? = some bind ∧ bind.bind.variable_.id = v ∧
            ∀ (j : Nat) (bind1 : Binding), j ≤ i → b.exprs[j]? = some bind1 →
              ¬ (v ∈ bind1.value.readIds ∨
                 (bind1.bind.variable_.id = v ∧
                  (isAliasForGlobal bind1.bind.variable_ && !bind1.value.isAlias) = true))) ∧
        (∀ x : LocalRef, b.exprs = [{ bind := { variable_ := x }, value := Instruction.Ident x }] →
          entry r.dead b.id x.id = some false) := by
  obtain ⟨r, e, _, _, _, hb⟩ := findAllReadsAndWrites_spec cfg isAliasForGlobal hpre
  refine ⟨r, e, ?_⟩
  intro b hbm
  obtain ⟨_, _, ld, _, _, hd⟩ := hb b hbm
  refine ⟨?_, ?_⟩
  · intro v
    rw [entry_eq_some_true]
    exact hd v
  · intro x hx
    have hxlt : x.id < cfg.maxVariableId := by
      have := ((hpre.vars_lt b hbm).1 _ (by rw [hx]; exact List.mem_singleton_self _)).1
      exact this
    rw [entry_eq_some_tbit _ _ _ (by rw [ld]; exact hxlt)]
    cases hbit : tbit r.dead b.id x.id with
    | false => rfl
    | true =>
      obtain ⟨i, bind, hi, _, hno⟩ := (hd x.id).1 hbit
      rw [hx] at hi hno
      have h0 := hno 0 _ (Nat.zero_le _) rfl
      exact absurd (Or.inl (by simp [Instruction.readIds])) h0

theorem C5_dead_iff_witness :
    exampleTwoCopies.IdsInRange ∧
    ∃ r, exampleTwoCopies.findAllReadsAndWrites (fun _ => false) = some r ∧
      ∀ b ∈ exampleTwoCopies.basicBlocks,
        (∀ v, entry r.dead b.id v = some true ↔
          ∃ (i : Nat) (bind : Binding), b.exprs[i]? = some bind ∧ bind.bind.variable_.id = v ∧
            ∀ (j : Nat) (bind1 : Binding), j ≤ i → b.exprs[j]? = some bind1 →
              ¬ (v ∈ bind1.value.readIds ∨
                 (bind1.bind.variable_.id = v ∧
                  ((fun _ => false) bind1.bind.variable_ && !bind1.value.isAlias) = true))) ∧
        (∀ x : LocalRef, b.exprs = [{ bind := { variable_ := x }, value := Instruction.Ident x }] →
          entry r.dead b.id x.id = some false) :=
  ⟨exampleTwoCopies_inRange,
   C5_dead_iff exampleTwoCopies (fun _ => false) exampleTwoCopies_inRange⟩

/-- C9: under the precondition (block ids pairwise distinct and below `maxBasicBlockId`,
every variable id used by a block below `maxVariableId`) the pass performs no out-of-range
access, that is, it returns; `reads`, `writes` and `dead` have `maxBasicBlockId` rows each,
and the row of every existing block has `maxVariableId` entries. -/
theorem C9_in_range_and_sizes (cfg : CFG) (isAliasForGlobal : LocalRef → Bool)
    (hpre : cfg.IdsInRange) :
    ∃ r, cfg.findAllReadsAndWrites isAliasForGlobal = some r ∧
      r.reads.length = cfg.maxBasicBlockId ∧
      r.writes.length = cfg.maxBasicBlockId ∧
      r.dead.length = cfg.maxBasicBlockId ∧
      ∀ b ∈ cfg.basicBlocks, ∃ rowR rowW rowD,
        r.reads[b.id]? = some rowR ∧ rowR.length = cfg.maxVariableId ∧
        r.writes[b.id]? = some rowW ∧ rowW.length = cfg.maxVariableId ∧
        r.dead[b.id]? = some rowD ∧ rowD.length = cfg.maxVariableId := by
  obtain ⟨r, e, l1, l2, l3, hb⟩ := findAllReadsAndWrites_spec cfg isAliasForGlobal hpre
  refine ⟨r, e, l1, l2, l3, ?_⟩
  intro b hbm
  obtain ⟨r1, r2, r3, _⟩ := hb b hbm
  have hid := hpre.ids_lt b hbm
  have g : ∀ t : Table, t.length = cfg.maxBasicBlockId →
      t[b.id]? = some (t.getD b.id []) := by
    intro t ht
    have hlt : b.id < t.length := by rw [ht]; exact hid
    simp [List.getD_eq_getElem?_getD, List.getElem?_eq_getElem hlt]
  exact ⟨_, _, _, g _ l1, r1, g _ l2, r2, g _ l3, r3⟩

theorem C9_in_range_and_sizes_witness :
    exampleCrossBlock.IdsInRange ∧
    ∃ r, exampleCrossBlock.findAllReadsAndWrites (fun _ => true) = some r ∧
      r.reads.length = exampleCrossBlock.maxBasicBlockId ∧
      r.writes.length = exampleCrossBlock.maxBasicBlockId ∧
      r.dead.length = exampleCrossBlock.maxBasicBlockId ∧
      ∀ b ∈ exampleCrossBlock.basicBlocks, ∃ rowR rowW rowD,
        r.reads[b.id]? = some rowR ∧ rowR.length = exampleCrossBlock.maxVariableId ∧
        r.writes[b.id]? = some rowW ∧ rowW.length = exampleCrossBlock.maxVariableId ∧
        r.dead[b.id]? = some rowD ∧ rowD.length = exampleCrossBlock.maxVariableId :=
  ⟨exampleCrossBlock_inRange,
   C9_in_range_and_sizes exampleCrossBlock (fun _ => true) exampleCrossBlock_inRange⟩

/-- C2, as stated, fails: in `exampleTwoCopies` block 2 holds exactly `v1 := copy(v2)`
followed by `v3 := copy(v1)` (distinct variables, no global alias, `v3` never read), and the
pass returns `dead[2][v1] = true`, not `false`. -/
theorem C2_counterexample :
    (∃ b ∈ exampleTwoCopies.basicBlocks, b.id = 2 ∧ b.exprs = [copyOf 1 2, copyOf 3 1]) ∧
    ∃ r, exampleTwoCopies.findAllReadsAndWrites (fun _ => false) = some r ∧
      entry r.dead 2 1 = some true ∧ entry r.dead 2 1 ≠ some false := by
  decide

/-- C2, amended: for every block whose bindings are exactly `x := copy(y)` followed by
`z := copy(x)` (`x`, `y`, `z` pairwise distinct, `x` and `z` not global aliases), the pass
produces `dead[b][x] = true` and `dead[b][z] = true`: the write to `x` is flagged because
`x` has not been read when it is written, and the later read does not retract the flag. -/
theorem C2_two_copies_both_dead (cfg : CFG) (isAliasForGlobal : LocalRef → Bool)
    (hpre : cfg.IdsInRange) (b : BasicBlock) (hb : b ∈ cfg.basicBlocks) (x y z : LocalRef)
    (hexprs : b.exprs = [{ bind := { variable_ := x }, value := Instruction.Ident y },
                         { bind := { variable_ := z }, value := Instruction.Ident x }])
    (hxy : x.id ≠ y.id) (hyz : y.id ≠ z.id) (hxz : x.id ≠ z.id)
    (hx : isAliasForGlobal x = false) (hz : isAliasForGlobal z = false) :
    ∃ r, cfg.findAllReadsAndWrites isAliasForGlobal = some r ∧
      entry r.dead b.id x.id = some true ∧ entry r.dead b.id z.id = some true := by
  obtain ⟨r, e, _, _, _, hblk⟩ := findAllReadsAndWrites_spec cfg isAliasForGlobal hpre
  obtain ⟨_, _, _, _, _, hd⟩ := hblk b hb
  refine ⟨r, e, ?_, ?_⟩
  · rw [entry_eq_some_true, hd, hexprs]
    refine ⟨0, _, rfl, rfl, ?_⟩
    intro j bind1 hj hb1
    have hj0 : j = 0 := by omega
    subst hj0
    simp only [List.getElem?_cons_zero, Option.some.injEq] at hb1
    subst hb1
    simp [Binding.marksRead, Binding.aliasRule, Binding.dest, Instruction.readIds, hx, hxy]
  · rw [entry_eq_some_true, hd, hexprs]
    refine ⟨1, _, rfl, rfl, ?_⟩
    intro j bind1 hj hb1
    have hj01 : j = 0 ∨ j = 1 := by omega
    rcases hj01 with h0 | h1
    · subst h0
      simp only [List.getElem?_cons_zero, Option.some.injEq] at hb1
      subst hb1
      simp [Binding.marksRead, Binding.aliasRule, Binding.dest, Instruction.readIds, hxz]
      exact fun e => hyz e.symm
    · subst h1
      simp only [List.getElem?_cons_succ, List.getElem?_cons_zero, Option.some.injEq] at hb1
      subst hb1
      simp [Binding.marksRead, Binding.aliasRule, Binding.dest, Instruction.readIds, hz]
      exact fun e => hxz e.symm

theorem C2_two_copies_both_dead_witness :
    ∃ r, exampleTwoCopies.findAllReadsAndWrites (fun _ => false) = some r ∧
      entry r.dead (exampleTwoCopies.basicBlocks.getD 2 BasicBlock.fresh).id
        (LocalRef.ofId 1).id = some true ∧
      entry r.dead (exampleTwoCopies.basicBlocks.getD 2 BasicBlock.fresh).id
        (LocalRef.ofId 3).id = some true :=
  C2_two_copies_both_dead exampleTwoCopies (fun _ => false) exampleTwoCopies_inRange
    (exampleTwoCopies.basicBlocks.getD 2 BasicBlock.fresh) (by decide)
    (LocalRef.ofId 1) (LocalRef.ofId 2) (LocalRef.ofId 3) (by decide)
    (by decide) (by decide) (by decide) rfl rfl

/-- C3, as stated, fails: in `exampleSingleCopy` block 2 holds only `v1 := copy(v2)`
(`v1` is no global alias, the exit is unconditional) and no other block touches `v1`; the
pass returns `reads[2] = {v2}` and `dead[2][v1] = true`, but `writes[2][v1] = false`, so
`writes[2]` is empty and not `{v1}`. -/
theorem C3_counterexample :
    (∃ b ∈ exampleSingleCopy.basicBlocks, b.id = 2 ∧ b.exprs = [copyOf 1 2] ∧
      b.bexit.cond.variable_.exists_ = false) ∧
    ∃ r, exampleSingleCopy.findAllReadsAndWrites (fun _ => false) = some r ∧
      r.reads[2]? = some [false, false, true] ∧
      r.writes[2]? = some [false, false, false] ∧
      r.dead[2]? = some [false, true, false] ∧
      entry r.writes 2 1 ≠ some true := by
  decide

/-- C3, amended: for every block `b` whose only binding is `x := copy(y)` (`x` different
from `y`, `x` not a global alias, unconditional exit), the pass returns `reads[b] = {y}`
and `dead[b][x] = true`, and `writes[b]` is `{x}` when some block other than `b` touches
`x` and is empty otherwise. -/
theorem C3_single_copy (cfg : CFG) (isAliasForGlobal : LocalRef → Bool)
    (hpre : cfg.IdsInRange) (b : BasicBlock) (hb : b ∈ cfg.basicBlocks) (x y : LocalRef)
    (hexprs : b.exprs = [{ bind := { variable_ := x }, value := Instruction.Ident y }])
    (hxy : x.id ≠ y.id) (hx : isAliasForGlobal x = false)
    (hexit : b.bexit.cond.variable_.exists_ = false) :
    ∃ r, cfg.findAllReadsAndWrites isAliasForGlobal = some r ∧
      (∀ v, entry r.reads b.id v = some true ↔ v = y.id) ∧
      (∀ v, entry r.writes b.id v = some true ↔
        v = x.id ∧ ∃ b1 ∈ cfg.basicBlocks, b1 ≠ b ∧ b1.touches x.id) ∧
      entry r.dead b.id x.id = some true := by
  obtain ⟨r, e, _, _, _, hblk⟩ := findAllReadsAndWrites_spec cfg isAliasForGlobal hpre
  obtain ⟨_, _, _, hr, hw, hd⟩ := hblk b hb
  refine ⟨r, e, ?_, ?_, ?_⟩
  · intro v
    rw [entry_eq_some_true, hr]
    simp [BasicBlock.readsVar, BasicBlock.exitReads, hexprs, hexit, Instruction.readIds,
      Binding.dest, hx, Instruction.isAlias]
  · intro v
    rw [entry_eq_some_true, hw]
    simp only [BasicBlock.writesVar, hexprs, List.mem_singleton, exists_eq_left, Binding.dest]
    constructor
    · rintro ⟨h1, h2⟩
      subst h1
      exact ⟨rfl, h2⟩
    · rintro ⟨h1, h2⟩
      subst h1
      exact ⟨rfl, h2⟩
  · rw [entry_eq_some_true, hd, hexprs]
    refine ⟨0, _, rfl, rfl, ?_⟩
    intro j bind1 hj hb1
    have hj0 : j = 0 := by omega
    subst hj0
    simp only [List.getElem?_cons_zero, Option.some.injEq] at hb1
    subst hb1
    simp [Binding.marksRead, Binding.aliasRule, Binding.dest, Instruction.readIds, hx, hxy]

theorem C3_single_copy_witness :
    ∃ r, exampleCrossBlock.findAllReadsAndWrites (fun _ => false) = some r ∧
      (∀ v, entry r.reads (exampleCrossBlock.basicBlocks.getD 0 BasicBlock.fresh).id v =
        some true ↔ v = (LocalRef.ofId 2).id) ∧
      (∀ v, entry r.writes (exampleCrossBlock.basicBlocks.getD 0 BasicBlock.fresh).id v =
        some true ↔
        v = (LocalRef.ofId 1).id ∧ ∃ b1 ∈ exampleCrossBlock.basicBlocks,
          b1 ≠ exampleCrossBlock.basicBlocks.getD 0 BasicBlock.fresh ∧
          b1.touches (LocalRef.ofId 1).id) ∧
      entry r.dead (exampleCrossBlock.basicBlocks.getD 0 BasicBlock.fresh).id
        (LocalRef.ofId 1).id = some true :=
  C3_single_copy exampleCrossBlock (fun _ => false) exampleCrossBlock_inRange
    (exampleCrossBlock.basicBlocks.getD 0 BasicBlock.fresh) (by decide)
    (LocalRef.ofId 1) (LocalRef.ofId 2) (by decide) (by decide) rfl (by decide)

/-- C6: in debug mode, for every CFG (holding its entry and dead block) in which every
block's exit condition has been set, `sanityCheck` succeeds exactly when every block `b`
other than the dead block satisfies: (1) its exit condition variable exists exactly when
its then-target differs from its else-target, (2) `b` occurs exactly once in the back-edge
list of its then-target, and (3) if the targets differ, `b` occurs exactly once in the
back-edge list of its else-target.  Consequently a non-dead block that does not occur
exactly once in the back-edge list of one of its successors makes `sanityCheck` fail. -/
theorem C6_sanityCheck_iff (cfg : CFG) (hdead : 1 < cfg.basicBlocks.length)
    (hset : ∀ b ∈ cfg.basicBlocks, b.bexit.isCondSet = true) :
    (cfg.sanityCheck true = some () ↔
      ∀ (p : Nat) (b : BasicBlock), cfg.basicBlocks[p]? = some b → p ≠ cfg.deadBlock →
        ((b.bexit.cond.variable_.exists_ = true ↔ b.bexit.thenb ≠ b.bexit.elseb) ∧
         (∃ t tb, b.bexit.thenb = some t ∧ cfg.basicBlocks[t]? = some tb ∧
            tb.backEdges.count p = 1) ∧
         (b.bexit.thenb ≠ b.bexit.elseb →
            ∃ e eb, b.bexit.elseb = some e ∧ cfg.basicBlocks[e]? = some eb ∧
              eb.backEdges.count p = 1))) ∧
    (∀ (p : Nat) (b : BasicBlock) (s : Nat) (sb : BasicBlock),
      cfg.basicBlocks[p]? = some b → p ≠ cfg.deadBlock →
      (b.bexit.thenb = some s ∨ b.bexit.elseb = some s) →
      cfg.basicBlocks[s]? = some sb → sb.backEdges.count p ≠ 1 →
      cfg.sanityCheck true ≠ some ()) := by
  have hiff : cfg.sanityCheck true = some () ↔
      ∀ (p : Nat) (b : BasicBlock), cfg.basicBlocks[p]? = some b → p ≠ cfg.deadBlock →
        ((b.bexit.cond.variable_.exists_ = true ↔ b.bexit.thenb ≠ b.bexit.elseb) ∧
         (∃ t tb, b.bexit.thenb = some t ∧ cfg.basicBlocks[t]? = some tb ∧
            tb.backEdges.count p = 1) ∧
         (b.bexit.thenb ≠ b.bexit.elseb →
            ∃ e eb, b.bexit.elseb = some e ∧ cfg.basicBlocks[e]? = some eb ∧
              eb.backEdges.count p = 1)) := by
    have hrun : cfg.sanityCheck true = sanityCheckLoop cfg 0 cfg.basicBlocks := by
      simp [CFG.sanityCheck]
    rw [hrun, sanityCheckLoop_iff]
    constructor
    · intro h p b hpb hp
      have hb : b ∈ cfg.basicBlocks := List.getElem?_mem hpb
      have := h p b hpb
      rw [Nat.zero_add] at this
      exact (sanityCheckBlock_iff cfg p b hdead (hset b hb) hp).1 this
    · intro h i b hib
      have hb : b ∈ cfg.basicBlocks := List.getElem?_mem hib
      rw [Nat.zero_add]
      by_cases hp : i = cfg.deadBlock
      · have hd : cfg.basicBlocks[cfg.deadBlock]? = some cfg.basicBlocks[1] :=
          List.getElem?_eq_getElem hdead
        simp [sanityCheckBlock, hset b hb, enforce, hd, hp]
      · exact (sanityCheckBlock_iff cfg i b hdead (hset b hb) hp).2 (h i b hib hp)
  refine ⟨hiff, ?_⟩
  intro p b s sb hpb hp hsucc hsb hcount hok
  obtain ⟨_, ⟨t, tb, ht, htb, htc⟩, helse⟩ := hiff.1 hok p b hpb hp
  have hthen : b.bexit.thenb = some s → False := by
    intro hs
    rw [hs] at ht
    cases ht
    rw [hsb] at htb
    cases htb
    exact hcount htc
  rcases hsucc with hs | hs
  · exact hthen hs
  · by_cases hte : b.bexit.thenb = b.bexit.elseb
    · exact hthen (hte.trans hs)
    · obtain ⟨e, eb, he, heb, hec⟩ := helse hte
      rw [hs] at he
      cases he
      rw [hsb] at heb
      cases heb
      exact hcount hec

theorem C6_sanityCheck_iff_witness :
    (exampleWired.sanityCheck true = some () ↔
      ∀ (p : Nat) (b : BasicBlock), exampleWired.basicBlocks[p]? = some b →
        p ≠ exampleWired.deadBlock →
        ((b.bexit.cond.variable_.exists_ = true ↔ b.bexit.thenb ≠ b.bexit.elseb) ∧
         (∃ t tb, b.bexit.thenb = some t ∧ exampleWired.basicBlocks[t]? = some tb ∧
            tb.backEdges.count p = 1) ∧
         (b.bexit.thenb ≠ b.bexit.elseb →
            ∃ e eb, b.bexit.elseb = some e ∧ exampleWired.basicBlocks[e]? = some eb ∧
              eb.backEdges.count p = 1))) ∧
    (∀ (p : Nat) (b : BasicBlock) (s : Nat) (sb : BasicBlock),
      exampleWired.basicBlocks[p]? = some b → p ≠ exampleWired.deadBlock →
      (b.bexit.thenb = some s ∨ b.bexit.elseb = some s) →
      exampleWired.basicBlocks[s]? = some sb → sb.backEdges.count p ≠ 1 →
      exampleWired.sanityCheck true ≠ some ()) :=
  C6_sanityCheck_iff exampleWired (by decide) (by decide)

/-- C11: `freshBlock` changes nothing but the tail of the block list and the id counter:
the new block list is the previous one followed by exactly one block, so every existing
block is found unchanged (id, loop depth, closure id, bindings, exit) at its position,
`maxVariableId` is unchanged and the id counter grows by one; on a CFG obtained from
`new()` the dead block still exits to itself with no condition variable. -/
theorem C11_freshBlock_frame (cfg : CFG) (outerLoops rubyBlockId : Int) :
    (∃ blk, (cfg.freshBlock outerLoops rubyBlockId).1.basicBlocks = cfg.basicBlocks ++ [blk]) ∧
    (cfg.freshBlock outerLoops rubyBlockId).1.basicBlocks.length =
      cfg.basicBlocks.length + 1 ∧
    (∀ (i : Nat) (b : BasicBlock), cfg.basicBlocks[i]? = some b →
      (cfg.freshBlock outerLoops rubyBlockId).1.basicBlocks[i]? = some b) ∧
    (cfg.freshBlock outerLoops rubyBlockId).1.maxVariableId = cfg.maxVariableId ∧
    (cfg.freshBlock outerLoops rubyBlockId).1.maxBasicBlockId = cfg.maxBasicBlockId + 1 ∧
    (Reachable cfg → ∃ d,
      (cfg.freshBlock outerLoops rubyBlockId).1.basicBlocks[
        (cfg.freshBlock outerLoops rubyBlockId).1.deadBlock]? = some d ∧
      d.bexit.thenb = some (cfg.freshBlock outerLoops rubyBlockId).1.deadBlock ∧
      d.bexit.elseb = some (cfg.freshBlock outerLoops rubyBlockId).1.deadBlock ∧
      d.bexit.cond.variable_.exists_ = false) := by
  refine ⟨⟨_, rfl⟩, by simp [CFG.freshBlock], ?_, rfl, rfl, ?_⟩
  · intro i b hib
    have hlt : i < cfg.basicBlocks.length := (List.getElem?_eq_some.1 hib).1
    simp only [CFG.freshBlock]
    rw [List.getElem?_append_left hlt]
    exact hib
  · intro hreach
    exact reachable_dead _ (Reachable.freshBlock outerLoops rubyBlockId hreach)

/-- C12: `findAllReadsAndWrites` leaves the CFG as it found it, a second call on the
unmodified CFG (same global-alias predicate) returns the same `reads`, `writes` and `dead`,
and the result is a function of the contents the pass reads only: two CFGs with the same
counters whose blocks agree, position by position, on id, bindings and exit condition
variable get the same result. -/
theorem C12_pass_is_pure (cfg : CFG) (isAliasForGlobal : LocalRef → Bool) :
    (cfg.callFindAllReadsAndWrites isAliasForGlobal).1 = cfg ∧
    ((cfg.callFindAllReadsAndWrites isAliasForGlobal).1.callFindAllReadsAndWrites
        isAliasForGlobal).2 = (cfg.callFindAllReadsAndWrites isAliasForGlobal).2 ∧
    (∀ cfg2 : CFG, cfg2.maxBasicBlockId = cfg.maxBasicBlockId →
      cfg2.maxVariableId = cfg.maxVariableId →
      List.Forall₂ BasicBlock.SameContents cfg.basicBlocks cfg2.basicBlocks →
      cfg2.findAllReadsAndWrites isAliasForGlobal =
        cfg.findAllReadsAndWrites isAliasForGlobal) := by
  refine ⟨rfl, rfl, ?_⟩
  intro cfg2 h1 h2 h3
  simp only [CFG.findAllReadsAndWrites, h1, h2,
    firstPass_congr isAliasForGlobal cfg.maxVariableId h3]

/-- C13: under the precondition of the pass, every binding of a block `b` whose
destination `d` is an alias for a global and whose instruction is not an `Alias` sets
`reads[b][d]`, and no such binding is the one that marks `d` dead (a dead mark of `d` stems
from a binding to `d` to which the rule does not apply); an `Alias` binding adds no read of
its destination, so an `Alias` binding to a destination that no earlier binding of the block
marks as read sets `dead[b][d]`. -/
theorem C13_global_alias_rule (cfg : CFG) (isAliasForGlobal : LocalRef → Bool)
    (hpre : cfg.IdsInRange) :
    ∃ r, cfg.findAllReadsAndWrites isAliasForGlobal = some r ∧
      ∀ b ∈ cfg.basicBlocks,
        (∀ bind ∈ b.exprs, isAliasForGlobal bind.bind.variable_ = true →
          bind.value.isAlias = false →
          entry r.reads b.id bind.bind.variable_.id = some true) ∧
        (∀ d, entry r.dead b.id d = some true →
          ∃ (i : Nat) (bind : Binding), b.exprs[i]? = some bind ∧
            bind.bind.variable_.id = d ∧
            ¬ (isAliasForGlobal bind.bind.variable_ = true ∧ bind.value.isAlias = false)) ∧
        (∀ (i : Nat) (bind : Binding), b.exprs[i]? = some bind →
          bind.value = Instruction.Alias →
          (∀ (j : Nat) (bind1 : Binding), j < i → b.exprs[j]? = some bind1 →
            ¬ bind1.marksRead isAliasForGlobal bind.bind.variable_.id) →
          entry r.dead b.id bind.bind.variable_.id = some true) := by
  obtain ⟨r, e, _, _, _, hblk⟩ := findAllReadsAndWrites_spec cfg isAliasForGlobal hpre
  refine ⟨r, e, ?_⟩
  intro b hb
  obtain ⟨_, _, _, hr, _, hd⟩ := hblk b hb
  refine ⟨?_, ?_, ?_⟩
  · intro bind hbind ha hna
    rw [entry_eq_some_true, hr]
    exact Or.inr (Or.inr ⟨bind, hbind, rfl, hna, ha⟩)
  · intro d hdead
    rw [entry_eq_some_true, hd] at hdead
    obtain ⟨i, bind, hi, hdst, hno⟩ := hdead
    refine ⟨i, bind, hi, hdst, ?_⟩
    rintro ⟨ha, hna⟩
    exact hno i bind (Nat.le_refl _) hi
      (Or.inr ⟨hdst, by simp [Binding.aliasRule, ha, hna]⟩)
  · intro i bind hi halias hearlier
    rw [entry_eq_some_true, hd]
    refine ⟨i, bind, hi, rfl, ?_⟩
    intro j bind1 hj hb1
    rcases Nat.lt_or_ge j i with hlt | hge
    · exact hearlier j bind1 hlt hb1
    · have hji : j = i := by omega
      subst hji
      rw [hi] at hb1
      cases hb1
      simp [Binding.marksRead, Binding.aliasRule, halias, Instruction.readIds,
        Instruction.isAlias]

theorem C13_global_alias_rule_witness :
    ∃ r, exampleCrossBlock.findAllReadsAndWrites (fun v => decide (v.id = 1)) = some r ∧
      ∀ b ∈ exampleCrossBlock.basicBlocks,
        (∀ bind ∈ b.exprs, (fun v : LocalRef => decide (v.id = 1)) bind.bind.variable_ = true →
          bind.value.isAlias = false →
          entry r.reads b.id bind.bind.variable_.id = some true) ∧
        (∀ d, entry r.dead b.id d = some true →
          ∃ (i : Nat) (bind : Binding), b.exprs[i]? = some bind ∧
            bind.bind.variable_.id = d ∧
            ¬ ((fun v : LocalRef => decide (v.id = 1)) bind.bind.variable_ = true ∧
               bind.value.isAlias = false)) ∧
        (∀ (i : Nat) (bind : Binding), b.exprs[i]? = some bind →
          bind.value = Instruction.Alias →
          (∀ (j : Nat) (bind1 : Binding), j < i → b.exprs[j]? = some bind1 →
            ¬ bind1.marksRead (fun v => decide (v.id = 1)) bind.bind.variable_.id) →
          entry r.dead b.id bind.bind.variable_.id = some true) :=
  C13_global_alias_rule exampleCrossBlock (fun v => decide (v.id = 1))
    exampleCrossBlock_inRange

/-- C15: the dead bit, and the read bit, are never retracted within the scan of a block:
when the binding list of a block is a prefix of the binding list of another block with the
same exit condition, every variable the pass marks dead (respectively read) for the
first block is marked dead (respectively read) for the second.  For example
`x := copy(y); x := copy(a); z := copy(x)` yields `dead[x] = true` although `x` is read
after its second write. -/
theorem C15_marks_never_retracted (cfg1 cfg2 : CFG) (isAliasForGlobal : LocalRef → Bool)
    (hpre1 : cfg1.IdsInRange) (hpre2 : cfg2.IdsInRange)
    (b1 b2 : BasicBlock) (hb1 : b1 ∈ cfg1.basicBlocks) (hb2 : b2 ∈ cfg2.basicBlocks)
    (rest : List Binding) (hexprs : b2.exprs = b1.exprs ++ rest)
    (hexit : b2.bexit.cond = b1.bexit.cond) :
    (∃ r1 r2, cfg1.findAllReadsAndWrites isAliasForGlobal = some r1 ∧
      cfg2.findAllReadsAndWrites isAliasForGlobal = some r2 ∧
      ∀ v, (entry r1.dead b1.id v = some true → entry r2.dead b2.id v = some true) ∧
           (entry r1.reads b1.id v = some true → entry r2.reads b2.id v = some true)) ∧
    (∃ r, exampleRewrite.findAllReadsAndWrites (fun _ => false) = some r ∧
      entry r.dead 2 1 = some true ∧ entry r.reads 2 1 = some true) := by
  refine ⟨?_, by decide⟩
  obtain ⟨r1, e1, _, _, _, hblk1⟩ := findAllReadsAndWrites_spec cfg1 isAliasForGlobal hpre1
  obtain ⟨r2, e2, _, _, _, hblk2⟩ := findAllReadsAndWrites_spec cfg2 isAliasForGlobal hpre2
  obtain ⟨_, _, _, hr1, _, hd1⟩ := hblk1 b1 hb1
  obtain ⟨_, _, _, hr2, _, hd2⟩ := hblk2 b2 hb2
  refine ⟨r1, r2, e1, e2, ?_⟩
  intro v
  refine ⟨?_, ?_⟩
  · rw [entry_eq_some_true, entry_eq_some_true, hd1, hd2, hexprs]
    exact deadIn_append isAliasForGlobal _ _ v
  · rw [entry_eq_some_true, entry_eq_some_true, hr1, hr2]
    simp only [BasicBlock.readsVar, BasicBlock.exitReads, hexprs, hexit, List.mem_append]
    rintro (⟨bind, hb, h⟩ | h | ⟨bind, hb, h⟩)
    · exact Or.inl ⟨bind, Or.inl hb, h⟩
    · exact Or.inr (Or.inl h)
    · exact Or.inr (Or.inr ⟨bind, Or.inl hb, h⟩)

theorem C15_marks_never_retracted_witness :
    (∃ r1 r2, exampleSingleCopy.findAllReadsAndWrites (fun _ => false) = some r1 ∧
      exampleTwoCopies.findAllReadsAndWrites (fun _ => false) = some r2 ∧
      ∀ v, (entry r1.dead (exampleSingleCopy.basicBlocks.getD 2 BasicBlock.fresh).id v =
              some true →
            entry r2.dead (exampleTwoCopies.basicBlocks.getD 2 BasicBlock.fresh).id v =
              some true) ∧
           (entry r1.reads (exampleSingleCopy.basicBlocks.getD 2 BasicBlock.fresh).id v =
              some true →
            entry r2.reads (exampleTwoCopies.basicBlocks.getD 2 BasicBlock.fresh).id v =
              some true)) ∧
    (∃ r, exampleRewrite.findAllReadsAndWrites (fun _ => false) = some r ∧
      entry r.dead 2 1 = some true ∧ entry r.reads 2 1 = some true) :=
  C15_marks_never_retracted exampleSingleCopy exampleTwoCopies (fun _ => false)
    exampleSingleCopy_inRange exampleTwoCopies_inRange
    (exampleSingleCopy.basicBlocks.getD 2 BasicBlock.fresh)
    (exampleTwoCopies.basicBlocks.getD 2 BasicBlock.fresh)
    (by decide) (by decide) [copyOf 3 1] (by decide) (by decide)

/-- C17: the read of the exit condition variable never rescues a write from being dead:
two blocks with the same binding list get the same `dead` row, whatever their exits are.
For example a block with the single binding `x := copy(y)` and a two-way exit on `x` has
both `reads[b][x] = true` and `dead[b][x] = true`. -/
theorem C17_dead_ignores_exit (cfg1 cfg2 : CFG) (isAliasForGlobal : LocalRef → Bool)
    (hpre1 : cfg1.IdsInRange) (hpre2 : cfg2.IdsInRange)
    (hvars : cfg1.maxVariableId = cfg2.maxVariableId)
    (b1 b2 : BasicBlock) (hb1 : b1 ∈ cfg1.basicBlocks) (hb2 : b2 ∈ cfg2.basicBlocks)
    (hexprs : b1.exprs = b2.exprs) :
    (∃ r1 r2, cfg1.findAllReadsAndWrites isAliasForGlobal = some r1 ∧
      cfg2.findAllReadsAndWrites isAliasForGlobal = some r2 ∧
      (∃ row, r1.dead[b1.id]? = some row ∧ r2.dead[b2.id]? = some row)) ∧
    (∃ r, exampleExitOnWritten.findAllReadsAndWrites (fun _ => false) = some r ∧
      entry r.reads 2 1 = some true ∧ entry r.dead 2 1 = some true) := by
  refine ⟨?_, by decide⟩
  obtain ⟨r1, e1, _, _, l1, hblk1⟩ := findAllReadsAndWrites_spec cfg1 isAliasForGlobal hpre1
  obtain ⟨r2, e2, _, _, l2, hblk2⟩ := findAllReadsAndWrites_spec cfg2 isAliasForGlobal hpre2
  obtain ⟨_, _, n1, _, _, hd1⟩ := hblk1 b1 hb1
  obtain ⟨_, _, n2, _, _, hd2⟩ := hblk2 b2 hb2
  refine ⟨r1, r2, e1, e2, r1.dead.getD b1.id [], ?_, ?_⟩
  · exact getElem?_eq_some_getD _ _ (by rw [l1]; exact hpre1.ids_lt b1 hb1)
  · rw [getElem?_eq_some_getD _ _ (by rw [l2]; exact hpre2.ids_lt b2 hb2)]
    congr 1
    apply row_ext _ _ (by rw [n1, n2, hvars])
    intro v
    have h1 := hd1 v
    have h2 := hd2 v
    unfold tbit at h1 h2
    rw [h1, h2, hexprs]

theorem C17_dead_ignores_exit_witness :
    (∃ r1 r2, exampleSingleCopy.findAllReadsAndWrites (fun _ => false) = some r1 ∧
      exampleExitOnWritten.findAllReadsAndWrites (fun _ => false) = some r2 ∧
      (∃ row, r1.dead[(exampleSingleCopy.basicBlocks.getD 2 BasicBlock.fresh).id]? = some row ∧
        r2.dead[(exampleExitOnWritten.basicBlocks.getD 2 BasicBlock.fresh).id]? = some row)) ∧
    (∃ r, exampleExitOnWritten.findAllReadsAndWrites (fun _ => false) = some r ∧
      entry r.reads 2 1 = some true ∧ entry r.dead 2 1 = some true) :=
  C17_dead_ignores_exit exampleSingleCopy exampleExitOnWritten (fun _ => false)
    exampleSingleCopy_inRange exampleExitOnWritten_inRange (by decide)
    (exampleSingleCopy.basicBlocks.getD 2 BasicBlock.fresh)
    (exampleExitOnWritten.basicBlocks.getD 2 BasicBlock.fresh)
    (by decide) (by decide) (by decide)

/-- C18: under the precondition of the pass, `dead[b][v] = true` implies that some binding
of `b` has destination `v`; the dead variables are however not included in the final
`writes`: in `exampleSingleCopy` the variable `v1`, confined to block 2, has
`dead[2][v1] = true` and `writes[2][v1] = false`. -/
theorem C18_dead_implies_written :
    (∀ (cfg : CFG) (isAliasForGlobal : LocalRef → Bool), cfg.IdsInRange →
      ∃ r, cfg.findAllReadsAndWrites isAliasForGlobal = some r ∧
        ∀ b ∈ cfg.basicBlocks, ∀ v, entry r.dead b.id v = some true →
          ∃ bind ∈ b.exprs, bind.bind.variable_.id = v) ∧
    (exampleSingleCopy.IdsInRange ∧
      ∃ r, exampleSingleCopy.findAllReadsAndWrites (fun _ => false) = some r ∧
        entry r.dead 2 1 = some true ∧ entry r.writes 2 1 = some false) := by
  refine ⟨?_, exampleSingleCopy_inRange, by decide⟩
  intro cfg iag hpre
  obtain ⟨r, e, _, _, _, hblk⟩ := findAllReadsAndWrites_spec cfg iag hpre
  refine ⟨r, e, ?_⟩
  intro b hb v hdead
  rw [entry_eq_some_true, (hblk b hb).2.2.2.2.2] at hdead
  exact writesVar_of_deadIn hdead

/-- C19: `reads` and `dead` are block-local: when two CFGs with the same `maxVariableId`
(and the same global-alias predicate) each contain a block with the same id, the same
binding list and the same exit condition variable, the rows `reads[b]` and `dead[b]` the
pass computes are equal, whatever the other blocks are.  `writes[b]` does depend on the
other blocks: block 2 is the same in `exampleSingleCopy` and `exampleSharedCopy`, and
`writes[2][v1]` is `false` in the first and `true` in the second. -/
theorem C19_reads_dead_block_local (cfg1 cfg2 : CFG) (isAliasForGlobal : LocalRef → Bool)
    (hpre1 : cfg1.IdsInRange) (hpre2 : cfg2.IdsInRange)
    (hvars : cfg1.maxVariableId = cfg2.maxVariableId)
    (b1 b2 : BasicBlock) (hb1 : b1 ∈ cfg1.basicBlocks) (hb2 : b2 ∈ cfg2.basicBlocks)
    (hsame : b1.SameContents b2) :
    (∃ r1 r2, cfg1.findAllReadsAndWrites isAliasForGlobal = some r1 ∧
      cfg2.findAllReadsAndWrites isAliasForGlobal = some r2 ∧
      (∃ row, r1.reads[b1.id]? = some row ∧ r2.reads[b1.id]? = some row) ∧
      (∃ row, r1.dead[b1.id]? = some row ∧ r2.dead[b1.id]? = some row)) ∧
    ((∃ b ∈ exampleSingleCopy.basicBlocks, ∃ c ∈ exampleSharedCopy.basicBlocks,
        b.id = 2 ∧ b = c) ∧
      (∃ r1, exampleSingleCopy.findAllReadsAndWrites (fun _ => false) = some r1 ∧
        entry r1.writes 2 1 = some false) ∧
      (∃ r2, exampleSharedCopy.findAllReadsAndWrites (fun _ => false) = some r2 ∧
        entry r2.writes 2 1 = some true)) := by
  refine ⟨?_, by decide, by decide, by decide⟩
  obtain ⟨hid, hexprs, hcond⟩ := hsame
  obtain ⟨r1, e1, lr1, _, l1, hblk1⟩ := findAllReadsAndWrites_spec cfg1 isAliasForGlobal hpre1
  obtain ⟨r2, e2, lr2, _, l2, hblk2⟩ := findAllReadsAndWrites_spec cfg2 isAliasForGlobal hpre2
  obtain ⟨m1, _, n1, hr1, _, hd1⟩ := hblk1 b1 hb1
  obtain ⟨m2, _, n2, hr2, _, hd2⟩ := hblk2 b2 hb2
  have hlt1 : b1.id < cfg1.maxBasicBlockId := hpre1.ids_lt b1 hb1
  have hlt2 : b1.id < cfg2.maxBasicBlockId := hid ▸ hpre2.ids_lt b2 hb2
  rw [← hid] at m2 n2 hr2 hd2
  refine ⟨r1, r2, e1, e2, ⟨r1.reads.getD b1.id [], ?_, ?_⟩, ⟨r1.dead.getD b1.id [], ?_, ?_⟩⟩
  · exact getElem?_eq_some_getD _ _ (by rw [lr1]; exact hlt1)
  · rw [getElem?_eq_some_getD _ _ (by rw [lr2]; exact hlt2)]
    congr 1
    apply row_ext _ _ (by rw [m1, m2, hvars])
    intro v
    have h1 := hr1 v
    have h2 := hr2 v
    unfold tbit at h1 h2
    rw [h1, h2]
    simp only [BasicBlock.readsVar, BasicBlock.exitReads, hexprs, hcond]
  · exact getElem?_eq_some_getD _ _ (by rw [l1]; exact hlt1)
  · rw [getElem?_eq_some_getD _ _ (by rw [l2]; exact hlt2)]
    congr 1
    apply row_ext _ _ (by rw [n1, n2, hvars])
    intro v
    have h1 := hd1 v
    have h2 := hd2 v
    unfold tbit at h1 h2
    rw [h1, h2, hexprs]

theorem C19_reads_dead_block_local_witness :
    (∃ r1 r2, exampleSingleCopy.findAllReadsAndWrites (fun _ => false) = some r1 ∧
      exampleSharedCopy.findAllReadsAndWrites (fun _ => false) = some r2 ∧
      (∃ row, r1.reads[(exampleSingleCopy.basicBlocks.getD 2 BasicBlock.fresh).id]? = some row ∧
        r2.reads[(exampleSingleCopy.basicBlocks.getD 2 BasicBlock.fresh).id]? = some row) ∧
      (∃ row, r1.dead[(exampleSingleCopy.basicBlocks.getD 2 BasicBlock.fresh).id]? = some row ∧
        r2.dead[(exampleSingleCopy.basicBlocks.getD 2 BasicBlock.fresh).id]? = some row)) ∧
    ((∃ b ∈ exampleSingleCopy.basicBlocks, ∃ c ∈ exampleSharedCopy.basicBlocks,
        b.id = 2 ∧ b = c) ∧
      (∃ r1, exampleSingleCopy.findAllReadsAndWrites (fun _ => false) = some r1 ∧
        entry r1.writes 2 1 = some false) ∧
      (∃ r2, exampleSharedCopy.findAllReadsAndWrites (fun _ => false) = some r2 ∧
        entry r2.writes 2 1 = some true)) :=
  C19_reads_dead_block_local exampleSingleCopy exampleSharedCopy (fun _ => false)
    exampleSingleCopy_inRange exampleSharedCopy_inRange (by decide)
    (exampleSingleCopy.basicBlocks.getD 2 BasicBlock.fresh)
    (exampleSharedCopy.basicBlocks.getD 2 BasicBlock.fresh)
    (by decide) (by decide) ⟨by decide, by decide, by decide⟩

/-- C20: under the precondition of the pass, at the end of the first pass the auxiliary
`readsAndWrites` table is the union of the `reads` table and the `writes` table as they are
before the suppression: for every block `b` and variable `v`, `readsAndWrites[b][v]` is
true exactly when `reads[b][v]` is true or `writes[b][v]` is true, that is, when
`reads[b][v]` is true or some binding of `b` has destination `v`. -/
theorem C20_readsAndWrites_is_union (cfg : CFG) (isAliasForGlobal : LocalRef → Bool)
    (hpre : cfg.IdsInRange) :
    ∃ ps, firstPass isAliasForGlobal cfg.maxVariableId (PassState.init cfg.maxBasicBlockId)
        cfg.basicBlocks = some ps ∧
      ∀ b ∈ cfg.basicBlocks, ∀ v,
        (entry ps.readsAndWrites b.id v = some true ↔
          entry ps.reads b.id v = some true ∨ entry ps.writes b.id v = some true) ∧
        (entry ps.readsAndWrites b.id v = some true ↔
          entry ps.reads b.id v = some true ∨ ∃ bind ∈ b.exprs, bind.bind.variable_.id = v) := by
  obtain ⟨r, ps, e, _, _, _, _, _, _, hblock, _⟩ := pass_spec cfg isAliasForGlobal hpre
  refine ⟨ps, e, ?_⟩
  intro b hb v
  obtain ⟨_, _, _, _, hr, hw, _, hrw⟩ := hblock b hb
  have h2 : entry ps.readsAndWrites b.id v = some true ↔
      entry ps.reads b.id v = some true ∨ ∃ bind ∈ b.exprs, bind.bind.variable_.id = v := by
    rw [entry_eq_some_true, entry_eq_some_true, hrw, hr]
    exact touches_iff isAliasForGlobal b v
  refine ⟨?_, h2⟩
  rw [h2, entry_eq_some_true ps.writes, hw]
  rfl

theorem C20_readsAndWrites_is_union_witness :
    ∃ ps, firstPass (fun v => decide (v.id = 1)) exampleCrossBlock.maxVariableId
        (PassState.init exampleCrossBlock.maxBasicBlockId)
        exampleCrossBlock.basicBlocks = some ps ∧
      ∀ b ∈ exampleCrossBlock.basicBlocks, ∀ v,
        (entry ps.readsAndWrites b.id v = some true ↔
          entry ps.reads b.id v = some true ∨ entry ps.writes b.id v = some true) ∧
        (entry ps.readsAndWrites b.id v = some true ↔
          entry ps.reads b.id v = some true ∨ ∃ bind ∈ b.exprs, bind.bind.variable_.id = v) :=
  C20_readsAndWrites_is_union exampleCrossBlock (fun v => decide (v.id = 1))
    exampleCrossBlock_inRange

/-- C16, as stated, fails: in `exampleDeadUnset` the only non-dead block (the entry
block) has its exit condition set and satisfies the exit-condition and back-edge rules,
but the exit condition of the dead block is unset, and `sanityCheck` fails in debug
mode. -/
theorem C16_counterexample :
    (∀ (p : Nat) (b : BasicBlock), exampleDeadUnset.basicBlocks[p]? = some b →
      p ≠ exampleDeadUnset.deadBlock →
      b.bexit.isCondSet = true ∧ exampleDeadUnset.WiredAt p b) ∧
    (∃ d, exampleDeadUnset.basicBlocks[exampleDeadUnset.deadBlock]? = some d ∧
      d.bexit.isCondSet = false) ∧
    exampleDeadUnset.sanityCheck true = none := by
  refine ⟨?_, by decide, by decide⟩
  intro p b hp hne
  match p, hp, hne with
  | 0, hp, _ =>
    have hb : b = exampleDeadUnset.basicBlocks.getD 0 BasicBlock.fresh := by
      have : exampleDeadUnset.basicBlocks[0]? =
          some (exampleDeadUnset.basicBlocks.getD 0 BasicBlock.fresh) := by decide
      rw [this] at hp
      exact (Option.some.inj hp).symm
    subst hb
    refine ⟨by decide, by decide, ⟨1, exampleDeadUnset.basicBlocks.getD 1 BasicBlock.fresh,
      by decide, by decide, by decide⟩, ?_⟩
    intro h
    exact absurd h (by decide)
  | 1, _, hne => exact absurd rfl hne
  | p + 2, hp, _ =>
    have : exampleDeadUnset.basicBlocks.length = 2 := by decide
    have hlt := (List.getElem?_eq_some.1 hp).1
    omega

/-- C16, amended: in debug mode `sanityCheck` applies the exit-condition and back-edge
rules to every block except the dead block, but requires of every block, the dead block
included, that its exit condition has been set.  For every CFG whose blocks all have their
exit condition set and whose non-dead blocks all satisfy the rules, `sanityCheck` succeeds,
and it still succeeds when the exit of the dead block is replaced by any exit whose
condition is set (whatever its targets, whether or not its condition variable exists);
nothing is required of the occurrences of the dead block in back-edge lists. -/
theorem C16_dead_block_exempt (cfg : CFG) (hdead : 1 < cfg.basicBlocks.length)
    (hset : ∀ b ∈ cfg.basicBlocks, b.bexit.isCondSet = true)
    (hrules : ∀ (p : Nat) (b : BasicBlock), cfg.basicBlocks[p]? = some b →
      p ≠ cfg.deadBlock → cfg.WiredAt p b) :
    cfg.sanityCheck true = some () ∧
    ∀ e : BlockExit, e.isCondSet = true →
      (cfg.modifyBlock cfg.deadBlock (fun d => { d with bexit := e })).sanityCheck true =
        some () := by
  refine ⟨sanityCheck_of_wired cfg hdead hset hrules, ?_⟩
  intro e he
  apply sanityCheck_of_wired
  · simpa [CFG.modifyBlock] using hdead
  · intro b hb
    obtain ⟨i, hi⟩ := List.mem_iff_getElem?.1 hb
    simp only [CFG.modifyBlock, List.getElem?_modify, Option.map_eq_map] at hi
    cases hold : cfg.basicBlocks[i]? with
    | none => rw [hold] at hi; cases hi
    | some b0 =>
      rw [hold] at hi
      simp only [Option.map_some', Option.some.injEq] at hi
      by_cases h1 : cfg.deadBlock = i
      · simp only [h1, if_true] at hi
        rw [← hi]
        exact he
      · simp only [h1, if_false] at hi
        rw [← hi]
        exact hset b0 (List.getElem?_mem hold)
  · intro p b hpb hp
    have hp1 : p ≠ cfg.deadBlock := hp
    have hold : cfg.basicBlocks[p]? = some b := by
      simp only [CFG.modifyBlock] at hpb
      rw [List.getElem?_modify_ne _ _ (fun h => hp1 h.symm)] at hpb
      exact hpb
    exact wiredAt_modify_dead_exit cfg e p b (hrules p b hold hp1)

theorem C16_dead_block_exempt_witness :
    exampleWired.sanityCheck true = some () ∧
    ∀ e : BlockExit, e.isCondSet = true →
      (exampleWired.modifyBlock exampleWired.deadBlock
        (fun d => { d with bexit := e })).sanityCheck true = some () :=
  C16_dead_block_exempt exampleWired (by decide) (by decide) exampleWired_wired

/-- C14: the text produced by `CFG::toString`, and likewise by `CFG::showRaw`, is the
cluster header followed by the elements of the graph description, block by block in
block-list order, and the closing brace, where the elements of a block are exactly: one
node declaration for the block, one bold (primary) edge from the id of the block to the id
of its then-target and, when the then-target and the else-target differ, one tapered
(secondary) edge to the id of the else-target, and none otherwise.  The text is produced
whenever the successor pointers that are read point to blocks. -/
theorem C14_rendering (cfg : CFG) (cEscape : String → String) (symbolName : String)
    (blockToString blockShowRaw : BasicBlock → String) :
    (cfg.toString cEscape symbolName blockToString =
      (graphSegments cfg (fun b => joinLabel cEscape (blockToString b)) cfg.basicBlocks).map
        (describe symbolName "invhouse")) ∧
    (cfg.showRaw cEscape symbolName blockShowRaw =
      (graphSegments cfg (fun b => joinLabel cEscape (blockShowRaw b)) cfg.basicBlocks).map
        (describe symbolName "box")) ∧
    (∀ (label : BasicBlock → String) (segments : List (List GraphItem)),
      graphSegments cfg label cfg.basicBlocks = some segments →
      segments.length = cfg.basicBlocks.length ∧
      ∀ (i : Nat) (bb : BasicBlock), cfg.basicBlocks[i]? = some bb →
        ∃ items t thenBlock, segments[i]? = some items ∧
          bb.bexit.thenb = some t ∧ cfg.basicBlocks[t]? = some thenBlock ∧
          items.filter GraphItem.isNode = [GraphItem.node bb.id (label bb)] ∧
          items.filter GraphItem.isPrimary = [GraphItem.primaryEdge bb.id thenBlock.id] ∧
          (bb.bexit.thenb = bb.bexit.elseb → items.filter GraphItem.isSecondary = []) ∧
          (bb.bexit.thenb ≠ bb.bexit.elseb →
            ∃ e elseBlock, bb.bexit.elseb = some e ∧ cfg.basicBlocks[e]? = some elseBlock ∧
              items.filter GraphItem.isSecondary =
                [GraphItem.secondaryEdge bb.id elseBlock.id]) ∧
          items.length = (if bb.bexit.thenb = bb.bexit.elseb then 2 else 3)) ∧
    ((∀ bb ∈ cfg.basicBlocks,
        (∃ t thenBlock, bb.bexit.thenb = some t ∧ cfg.basicBlocks[t]? = some thenBlock) ∧
        (bb.bexit.thenb ≠ bb.bexit.elseb →
          ∃ e elseBlock, bb.bexit.elseb = some e ∧ cfg.basicBlocks[e]? = some elseBlock)) →
      (∃ text, cfg.toString cEscape symbolName blockToString = some text) ∧
      (∃ text, cfg.showRaw cEscape symbolName blockShowRaw = some text)) := by
  have hrender : ∀ (shape : String) (blockText : BasicBlock → String),
      (renderBlocks cfg cEscape symbolName blockText (clusterHeader symbolName shape)
          cfg.basicBlocks).bind (fun buf => some (buf ++ "\x7d")) =
        (graphSegments cfg (fun b => joinLabel cEscape (blockText b)) cfg.basicBlocks).map
          (describe symbolName shape) := by
    intro shape blockText
    rw [renderBlocks_eq]
    cases graphSegments cfg (fun b => joinLabel cEscape (blockText b)) cfg.basicBlocks with
    | none => rfl
    | some segments => rfl
  have h1 : cfg.toString cEscape symbolName blockToString =
      (graphSegments cfg (fun b => joinLabel cEscape (blockToString b)) cfg.basicBlocks).map
        (describe symbolName "invhouse") := hrender "invhouse" blockToString
  have h2 : cfg.showRaw cEscape symbolName blockShowRaw =
      (graphSegments cfg (fun b => joinLabel cEscape (blockShowRaw b)) cfg.basicBlocks).map
        (describe symbolName "box") := hrender "box" blockShowRaw
  refine ⟨h1, h2, ?_, ?_⟩
  · intro label segments hseg
    obtain ⟨hlen, hitems⟩ := graphSegments_shape cfg label cfg.basicBlocks segments hseg
    refine ⟨hlen, ?_⟩
    intro i bb hib
    obtain ⟨items, hi, hbi⟩ := hitems i bb hib
    obtain ⟨t, tb, a1, a2, a3, a4, a5, a6, a7⟩ := blockItems_shape cfg label bb items hbi
    exact ⟨items, t, tb, hi, a1, a2, a3, a4, a5, a6, a7⟩
  · intro hvalid
    have hsome : ∀ label : BasicBlock → String,
        ∃ segments, graphSegments cfg label cfg.basicBlocks = some segments := by
      intro label
      apply graphSegments_isSome
      intro bb hbb
      obtain ⟨⟨t, tb, ht, htb⟩, helse⟩ := hvalid bb hbb
      unfold blockItems
      by_cases heq : bb.bexit.thenb = bb.bexit.elseb
      · simp [ht, htb, ← heq]
      · obtain ⟨e, eb, he, heb⟩ := helse heq
        have hne : ¬ (t = e) := by
          intro h; apply heq; rw [ht, he, h]
        simp [ht, htb, he, heb, hne]
    obtain ⟨s1, hs1⟩ := hsome (fun b => joinLabel cEscape (blockToString b))
    obtain ⟨s2, hs2⟩ := hsome (fun b => joinLabel cEscape (blockShowRaw b))
    exact ⟨⟨_, by rw [h1, hs1]; rfl⟩, ⟨_, by rw [h2, hs2]; rfl⟩⟩

end sorbet.cfg
